import Mathlib

/-!
Verification development for the Eizen HNSW vector index
(repository context0; core sources: `src/Eizen/src/hnsw.ts`,
`src/Eizen/src/db/index.ts`, `src/Eizen/src/db/common/index.ts`,
`src/Eizen/src/utils` and `src/API/src/services/EizenService.ts`).

Shallow embedding conventions, justified definition by definition below:

* Vectors (`Point = number[]`) are lists of rationals.  The source computes
  `cosine_distance` over IEEE doubles; the algorithms consume distances only
  through an opaque total function and order comparisons, so the distance
  function is a parameter `dist : Point → Point → ℚ` of every algorithm, and
  every theorem quantifies over it.
* The key/value backend stores strings produced by a lossless codec
  (`encodePoint`/`decodePoint`, `encodeLayerNode`/`decodeLayerNode`,
  `JSON.stringify`/`safeParse`, `toString`/`parseInt`).  The store is
  modelled up to that codec: each key of the schema of
  `src/Eizen/src/db/common/index.ts` (`"layers"`, `"ep"`, `"points"`,
  `"<id>"`, `"m:<id>"`, `"<layer>__<id>"`) holds its decoded value.
* JavaScript records (`Record<number, number>`) are association lists;
  `obj[k] = v` replaces the first binding of `k` in place or appends a new
  binding.  JS iterates integer keys in ascending numeric order; the claims
  verified here are insensitive to enumeration order, so insertion order is
  used.
* `heap-js` heaps ordered by `compareNode` (distance) are plain lists whose
  `pop`/`top` extract the first occurrence of a minimal-distance element;
  `heapArray` is the list itself.  Which minimal element a binary heap
  returns among ties is unspecified, and every property proved below is
  invariant under that choice.
* `Math.random`-driven layer selection (`select_layer`) is a parameter: the
  drawn layer `l` is passed to `insert` explicitly.
* `while` loops whose variant is not structural (`search_layer`) take a
  fuel parameter; exhausting fuel yields the distinguished error
  `Err.fuel`, and theorems quantify over fuel or condition on an `ok`
  result.
* Effectful code is state passing: `EM Mt α = Store Mt → Except Err α ×
  Store Mt`.  A thrown JS exception propagates without undoing completed
  writes, hence the state is returned alongside the error.  Each backend
  write appends the written key to a `log` field, giving the write trace.
-/

namespace Context0

/-- A vector (`Point = number[]` in `src/Eizen/src/types/index.ts`). -/
abbrev Point := List ℚ

/-- A `[distance, id]` pair (`Node` in `src/Eizen/src/types/index.ts`). -/
abbrev Nd := ℚ × Nat

/-- A `LayerNode` (`Record<number, number>`): neighbor id → cached distance. -/
abbrev LNode := List (Nat × ℚ)

/-- A `Graph` (`Record<number, LayerNode>`): node id → its layer node. -/
abbrev Graph := List (Nat × LNode)

/-- JS record update `obj[k] = v`: replace the first binding of `k`,
else append. -/
def aSet {κ α : Type} [DecidableEq κ] : List (κ × α) → κ → α → List (κ × α)
  | [], k, v => [(k, v)]
  | p :: t, k, v => if p.1 = k then (k, v) :: t else p :: aSet t k v

/-- JS record read `obj[k]`: first binding of `k`, if any. -/
def aGet {κ α : Type} [DecidableEq κ] : List (κ × α) → κ → Option α
  | [], _ => none
  | p :: t, k => if p.1 = k then some p.2 else aGet t k

/-- The KV key schema of `src/Eizen/src/db/common/index.ts`. -/
inductive Key where
  | layers : Key
  | ep : Key
  | points : Key
  | point (idx : Nat) : Key
  | meta (idx : Nat) : Key
  | nbr (layer : Nat) (idx : Nat) : Key
deriving DecidableEq

/-- Errors thrown by `EizenMemory` reads, plus fuel exhaustion of the
embedding (a loop of the source that has not yet finished). -/
inductive Err where
  | noPoint (idx : Nat) : Err
  | noNbr (layer : Nat) (idx : Nat) : Err
  | fuel : Err
deriving DecidableEq

/-- The backend KV state, decoded per key class, plus the chronological
log of written keys.  `Mt` is the metadata type parameter `M` of
`HNSW<M>`. -/
structure Store (Mt : Type) where
  layersCell : Option Nat
  epCell : Option Nat
  pointsCell : Option Nat
  pts : List (Nat × Point)
  metas : List (Nat × Mt)
  nbrs : List ((Nat × Nat) × LNode)
  log : List Key
deriving DecidableEq

/-- The freshly deployed contract: every key absent. -/
def emptyStore (Mt : Type) : Store Mt :=
  { layersCell := none, epCell := none, pointsCell := none
    pts := [], metas := [], nbrs := [], log := [] }

/-- State-passing computations over the store.  Errors carry the state at
throw time: a JS exception does not undo completed writes. -/
def EM (Mt : Type) (α : Type) : Type := Store Mt → Except Err α × Store Mt

def EM.pure {Mt α : Type} (a : α) : EM Mt α := fun s => (.ok a, s)

def EM.bind {Mt α β : Type} (x : EM Mt α) (f : α → EM Mt β) : EM Mt β :=
  fun s =>
    match x s with
    | (.ok a, s') => f a s'
    | (.error e, s') => (.error e, s')

instance {Mt : Type} : Monad (EM Mt) where
  pure := EM.pure
  bind := EM.bind

theorem EM.run_bind {Mt α β : Type} (x : EM Mt α) (f : α → EM Mt β)
    (s : Store Mt) :
    (x >>= f) s =
      match x s with
      | (.ok a, s') => f a s'
      | (.error e, s') => (.error e, s') := rfl

theorem EM.run_pure {Mt α : Type} (a : α) (s : Store Mt) :
    (Pure.pure (f := EM Mt) a) s = (.ok a, s) := rfl

/-- Inversion of a successful bind. -/
theorem EM.bind_ok {Mt α β : Type} {x : EM Mt α} {f : α → EM Mt β}
    {s s₂ : Store Mt} {b : β} (h : (x >>= f) s = (.ok b, s₂)) :
    ∃ a s₁, x s = (.ok a, s₁) ∧ f a s₁ = (.ok b, s₂) := by
  rw [EM.run_bind] at h
  rcases hx : x s with ⟨r, s₁⟩
  cases r with
  | ok a => exact ⟨a, s₁, rfl, by rw [hx] at h; exact h⟩
  | error e => rw [hx] at h; simp at h

/-! ### The graph store (`EizenMemory`, `src/Eizen/src/db/index.ts`)

Each operation mirrors one method of `EizenMemory`.  `client.get` of an
absent key yields `null`; reads decode with the lossless codec, writes
encode and append the written key to the log. -/

variable {Mt : Type}

/-- `get_ep`: read `"ep"`, `null` when absent. -/
def get_ep : EM Mt (Option Nat) := fun s => (.ok s.epCell, s)

/-- `set_ep`: write `"ep"`. -/
def set_ep (ep : Nat) : EM Mt Unit := fun s =>
  (.ok (), { s with epCell := some ep, log := s.log ++ [.ep] })

/-- `get_num_layers`: read `"layers"`, defaulting to 0. -/
def get_num_layers : EM Mt Nat := fun s => (.ok (s.layersCell.getD 0), s)

/-- `get_datasize`: read `"points"`, defaulting to 0. -/
def get_datasize : EM Mt Nat := fun s => (.ok (s.pointsCell.getD 0), s)

/-- `get_point`: read `"<idx>"`, throwing `No point with index idx` when
absent. -/
def get_point (idx : Nat) : EM Mt Point := fun s =>
  match aGet s.pts idx with
  | some v => (.ok v, s)
  | none => (.error (.noPoint idx), s)

/-- Helper of `get_points`: look every index up, failing on the first
absent one (the source reads the batch, then reports the first `null`). -/
def getPointsAux (pts : List (Nat × Point)) : List Nat → Except Err (List Point)
  | [] => .ok []
  | i :: t =>
    match aGet pts i with
    | none => .error (.noPoint i)
    | some v =>
      match getPointsAux pts t with
      | .ok vs => .ok (v :: vs)
      | .error e => .error e

/-- `get_points`: batched point read; order preserving, fails on the first
missing index.  The source's early return for `[]` coincides with the
general path. -/
def get_points (idxs : List Nat) : EM Mt (List Point) := fun s =>
  (getPointsAux s.pts idxs, s)

/-- `new_point`: assign `idx = get_datasize()`, write `"<idx>"`, then
write `"points" = idx + 1`; return `idx`. -/
def new_point (q : Point) : EM Mt Nat := fun s =>
  let idx := s.pointsCell.getD 0
  (.ok idx,
    { s with
      pts := aSet s.pts idx q
      pointsCell := some (idx + 1)
      log := s.log ++ [.point idx, .points] })

/-- `get_neighbor`: read `"<layer>__<idx>"`, throwing when absent. -/
def get_neighbor (layer idx : Nat) : EM Mt LNode := fun s =>
  match aGet s.nbrs (layer, idx) with
  | some nd => (.ok nd, s)
  | none => (.error (.noNbr layer idx), s)

/-- Helper of `get_neighbors`: look every index up at the given layer,
failing on the first absent one. -/
def getNbrsAux (nbrs : List ((Nat × Nat) × LNode)) (layer : Nat) :
    List Nat → Except Err (List (Nat × LNode))
  | [] => .ok []
  | i :: t =>
    match aGet nbrs (layer, i) with
    | none => .error (.noNbr layer i)
    | some nd =>
      match getNbrsAux nbrs layer t with
      | .ok rest => .ok ((i, nd) :: rest)
      | .error e => .error e

/-- `Object.fromEntries`: later bindings of a duplicated key win. -/
def fromEntries (l : List (Nat × LNode)) : Graph :=
  l.foldl (fun g p => aSet g p.1 p.2) []

/-- `get_neighbors` (batch): read layer nodes of all indices, failing on
the first missing one, and assemble the `Graph` record. -/
def get_neighbors (layer : Nat) (idxs : List Nat) : EM Mt Graph := fun s =>
  match getNbrsAux s.nbrs layer idxs with
  | .ok entries => (.ok (fromEntries entries), s)
  | .error e => (.error e, s)

/-- `upsert_neighbor`: overwrite `"<layer>__<idx>"`. -/
def upsert_neighbor (layer idx : Nat) (node : LNode) : EM Mt Unit := fun s =>
  (.ok (),
    { s with
      nbrs := aSet s.nbrs (layer, idx) node
      log := s.log ++ [.nbr layer idx] })

/-- `upsert_neighbors` (batch): write every entry of the record, in
enumeration order, through `safe_set_many` (whose bisection is the
identity when no write fails; it is modelled separately below). -/
def upsert_neighbors (layer : Nat) (nodes : Graph) : EM Mt Unit := fun s =>
  (.ok (),
    nodes.foldl
      (fun st p =>
        { st with
          nbrs := aSet st.nbrs (layer, p.1) p.2
          log := st.log ++ [.nbr layer p.1] })
      s)

/-- Write the `"layers"` cell (the trailing `client.set` of
`new_neighbor`). -/
def set_layers (n : Nat) : EM Mt Unit := fun s =>
  (.ok (), { s with layersCell := some n, log := s.log ++ [.layers] })

/-- `new_neighbor`: read `num_layers`, create an empty layer node for
`idx` at that layer, then bump `"layers"`. -/
def new_neighbor (idx : Nat) : EM Mt Unit := do
  let l ← get_num_layers
  upsert_neighbor l idx ([] : LNode)
  set_layers (l + 1)

/-- `get_metadata`: read `"m:<idx>"`; `safeParse` maps an absent key to
`null` (a stored `JSON.stringify` value is a nonempty string, hence
truthy). -/
def get_metadata (idx : Nat) : EM Mt (Option Mt) := fun s =>
  (.ok (aGet s.metas idx), s)

/-- `get_metadatas`: batched metadata read; absent entries yield `null`. -/
def get_metadatas (idxs : List Nat) : EM Mt (List (Option Mt)) := fun s =>
  (.ok (idxs.map (aGet s.metas)), s)

/-- `set_metadata`: overwrite `"m:<idx>"` with the JSON encoding. -/
def set_metadata (idx : Nat) (data : Mt) : EM Mt Unit := fun s =>
  (.ok (),
    { s with
      metas := aSet s.metas idx data
      log := s.log ++ [.meta idx] })

/-! ### Heap model (`NodeHeap` over `compareNode`, `src/Eizen/src/utils`)

A `heap-js` min-heap ordered by distance is a list; `pop`/`top` take the
first occurrence of a minimal-distance element, `push` appends, and
`heapArray` is the list.  Which of several tied minima a binary heap
yields is unspecified in the source; the properties proved below do not
depend on the choice. -/

/-- The element `top(1)[0]` would return: first minimal-distance element. -/
def findMin : List Nd → Option Nd
  | [] => none
  | x :: t =>
    match findMin t with
    | none => some x
    | some y => if x.1 ≤ y.1 then some x else some y

/-- `pop`: remove the first minimal-distance element, returning it and
the remaining heap. -/
def popMin : List Nd → Option Nd × List Nd
  | [] => (none, [])
  | x :: t =>
    match findMin t with
    | none => (some x, [])
    | some y =>
      if x.1 ≤ y.1 then (some x, t)
      else
        let r := popMin t
        (r.1, x :: r.2)

/-! ### The HNSW engine (`src/Eizen/src/hnsw.ts`) -/

/-- The configuration the `HNSW` constructor derives from `(M,
ef_construction, ef_search)`.  The field `ml = 1 / ln M` only feeds the
`Math.random` draw of `select_layer`, which the embedding replaces by an
explicit layer argument, so it is omitted. -/
structure HNSW where
  m : Nat
  m_max0 : Nat
  ef_construction : Nat
  ef : Nat
deriving DecidableEq

/-- The `HNSW` constructor: `m_max0 = M * 2`. -/
def HNSW.make (M ef_construction ef_search : Nat) : HNSW :=
  { m := M, m_max0 := M * 2, ef_construction := ef_construction
    ef := ef_search }

theorem findMin_eq_none {l : List Nd} : findMin l = none ↔ l = [] := by
  constructor
  · intro h
    cases l with
    | nil => rfl
    | cons x t =>
      simp only [findMin] at h
      rcases hf : findMin t with _ | y <;> rw [hf] at h
      · simp at h
      · by_cases hle : x.1 ≤ y.1 <;> simp [hle] at h
  · rintro rfl; rfl

theorem popMin_snd_length :
    ∀ (l : List Nd), l ≠ [] → ((popMin l).2).length + 1 = l.length := by
  intro l
  induction l with
  | nil => intro h; exact absurd rfl h
  | cons x t ih =>
    intro _
    simp only [popMin]
    rcases hf : findMin t with _ | y
    · rw [findMin_eq_none.mp hf]
      simp
    · by_cases hle : x.1 ≤ y.1
      · simp [hle]
      · have ht : t ≠ [] := by
          intro h0
          rw [h0] at hf
          simp [findMin] at hf
        simp only [hle, if_false, List.length_cons]
        rw [← ih ht]

/-- Phase 1 of `select_neighbors`: pop candidates in ascending distance
order; accept into `R` when `R` is empty or the candidate's distance is
below the current top (minimum) of `R`, else push onto the discarded
heap `W_d`; stop when `R` is full or candidates run out.  The source is
a `while (W.length > 0 && R.length < M)` loop; since `popMin` removes
exactly one element per iteration, driving the recursion structurally
by the exact bound `W.length` (see `selPhase1`) is a faithful
embedding of that loop. -/
def selPhase1Go (M : Nat) :
    Nat → List Nd → List Nd → List Nd → List Nd × List Nd
  | 0, _, R, W_d => (R, W_d)
  | b + 1, W, R, W_d =>
    if W ≠ [] ∧ R.length < M then
      match popMin W with
      | (some e, W') =>
        let accept : Bool :=
          match findMin R with
          | none => true
          | some rt => decide (e.1 < rt.1)
        if accept then selPhase1Go M b W' (R ++ [e]) W_d
        else selPhase1Go M b W' R (W_d ++ [e])
      | (none, _) => (R, W_d)
    else (R, W_d)

def selPhase1 (M : Nat) (W R W_d : List Nd) : List Nd × List Nd :=
  selPhase1Go M W.length W R W_d

/-- Phase 2 of `select_neighbors` (`keepPrunedConnections`): refill `R`
from the discarded heap in ascending distance order until full; the
structural bound `W_d.length` is exact, as in `selPhase1Go`. -/
def selPhase2Go (M : Nat) : Nat → List Nd → List Nd → List Nd
  | 0, _, R => R
  | b + 1, W_d, R =>
    if W_d ≠ [] ∧ R.length < M then
      match popMin W_d with
      | (some d, W') => selPhase2Go M b W' (R ++ [d])
      | (none, _) => R
    else R

def selPhase2 (M : Nat) (W_d R : List Nd) : List Nd :=
  selPhase2Go M W_d.length W_d R

/-- `select_neighbors` (Algorithm 4, simple heuristic).  `q` is unused by
the source body: candidate distances are precomputed in `C`. -/
def select_neighbors (cfg : HNSW) (q : Point) (C : List Nd) (l_c : Nat)
    (keepPrunedConnections : Bool := true) : List Nd :=
  let M := if l_c > 0 then cfg.m else cfg.m_max0
  let p1 := selPhase1 M C [] []
  if keepPrunedConnections then selPhase2 M p1.2 p1.1 else p1.1

/-- The `dists.forEach` body of `search_layer`: for each unvisited
neighbor `e` at distance `d`, mark it visited; if `d` beats the furthest
current result (`f_dist`, fixed for the whole batch) or the result heap
`W` is not yet full, push `e` onto both heaps (`W` with negated distance)
and drop the furthest result on overflow.  Returns the updated
`(V, C, W)`. -/
def processBatch (ef : Nat) (f_dist : ℚ) :
    List (ℚ × Nat) → List Nat → List Nd → List Nd →
      List Nat × List Nd × List Nd
  | [], V, C, W => (V, C, W)
  | (d, e) :: t, V, C, W =>
    let V' := V ++ [e]
    if d < f_dist ∨ W.length < ef then
      let C' := C ++ [(d, e)]
      let W' := W ++ [(-d, e)]
      let W'' := if W'.length > ef then (popMin W').2 else W'
      processBatch ef f_dist t V' C' W''
    else processBatch ef f_dist t V' C W

/-- The `while` loop of `search_layer` (Algorithm 2), on fuel.  `C` is
the candidate min-heap, `W` the result heap holding negated distances
(so its minimum is the furthest result), `V` the visited set. -/
def searchLoop (dist : Point → Point → ℚ) (q : Point) (l_c : Nat) (ef : Nat) :
    Nat → List Nat → List Nd → List Nd → EM Mt (List Nd)
  | 0, _, _, _ => fun s => (.error .fuel, s)
  | fuel + 1, V, C, W =>
    if C = [] then EM.pure W
    else
      match popMin C with
      | (none, _) => EM.pure W
      | (some c, C') =>
        match findMin W with
        | none => EM.pure W
        | some topW =>
          let f_dist := -topW.1
          if c.1 > f_dist then EM.pure W
          else do
            let nb ← get_neighbor l_c c.2
            let neighbors := (nb.map (·.1)).filter (fun k => ¬ V.contains k)
            let points ← get_points neighbors
            let dists := points.map (fun p => dist p q)
            let st := processBatch ef f_dist (dists.zip neighbors) V C' W
            searchLoop dist q l_c ef fuel st.1 st.2.1 st.2.2

/-- The pure epilogue of `search_layer`: undo the result heap's negation;
when `ef = 1`, rebuild a min-heap of the un-negated results and pop the
single closest element.  Every branch of the source epilogue merely
returns a value, so it is split off as a function for proof convenience. -/
def searchPost (ef : Nat) (Wend : List Nd) : List Nd :=
  if ef = 1 then
    if Wend.length ≠ 0 then
      match popMin (Wend.map (fun p => (-p.1, p.2))) with
      | (some r, _) => [r]
      | (none, _) => []
    else []
  else Wend.map (fun p => (-p.1, p.2))

/-- `search_layer` (Algorithm 2): initialise the visited set and both
heaps from the entry points, run the loop, then post-process. -/
def search_layer (dist : Point → Point → ℚ) (fuel : Nat) (q : Point)
    (ep : List Nd) (ef : Nat) (l_c : Nat) : EM Mt (List Nd) := do
  let V := ep.map (·.2)
  let C := ep
  let W := ep.map (fun p => (-p.1, p.2))
  let Wend ← searchLoop dist q l_c ef fuel V C W
  EM.pure (searchPost ef Wend)

/-- Phase 1 of `insert`: route from the top layer down to layer `l + 1`
with `ef = 1`, adopting the search result as the new entry point whenever
it is strictly closer. -/
def routeLoop (dist : Point → Point → ℚ) (fuel : Nat) (q : Point) :
    List Nat → List Nd → EM Mt (List Nd)
  | [], ep => EM.pure ep
  | i :: rest, ep => do
    let W ← search_layer dist fuel q (ep.map (fun e => (e.1, e.2))) 1 i
    let ep' :=
      match W.head?, ep.head? with
      | some w, some e0 => if e0.1 > w.1 then W else ep
      | _, _ => ep
    routeLoop dist fuel q rest ep'

/-- Phase 4 of `insert`: for each selected neighbor whose updated degree
exceeds `M`, recompute its adjacency with `select_neighbors` (keyed on
that neighbor's own point) and replace it. -/
def pruneLoop (dist : Point → Point → ℚ) (cfg : HNSW) (l_c M : Nat) :
    List Nd → Graph → EM Mt Graph
  | [], nodes => EM.pure nodes
  | e :: t, nodes => do
    let eConn : List Nd := ((aGet nodes e.2).getD []).map (fun p => (p.2, p.1))
    if eConn.length > M then do
      let pe ← get_point e.2
      let eNewConn := select_neighbors cfg pe eConn l_c
      let dict : LNode := eNewConn.foldl (fun d en => aSet d en.2 en.1) []
      pruneLoop dist cfg l_c M t
        (aSet nodes e.2 dict)
    else pruneLoop dist cfg l_c M t nodes

/-- One iteration of Phase 2 of `insert` at layer `l_c`: search with
`ef_construction`, advance the entry points, select neighbors, make the
bidirectional connections, prune overflowing neighbors, and persist the
new node and the updated neighbors. -/
def insertLayerStep (dist : Point → Point → ℚ) (cfg : HNSW) (fuel : Nat)
    (q : Point) (idx : Nat) (l_c : Nat) (ep : List Nd) : EM Mt (List Nd) := do
  let W ← search_layer dist fuel q ep cfg.ef_construction l_c
  let ep' := W.map (fun e => (e.1, e.2))
  let neighbors := select_neighbors cfg q W l_c
  let indices := neighbors.map (·.2)
  let nodes ← get_neighbors l_c indices
  let M := if l_c = 0 then cfg.m_max0 else cfg.m
  let newNode : LNode := neighbors.foldl (fun nn e => aSet nn e.2 e.1) []
  let nodes := neighbors.foldl
    (fun g e =>
      match aGet g e.2 with
      | some nd => aSet g e.2 (aSet nd idx e.1)
      | none => g)
    nodes
  let nodes ← pruneLoop dist cfg l_c M neighbors nodes
  upsert_neighbor l_c idx newNode
  upsert_neighbors l_c nodes
  EM.pure ep'

/-- Phase 2 of `insert`: run `insertLayerStep` for each layer of the
given descending list, threading the entry points. -/
def insertLayersLoop (dist : Point → Point → ℚ) (cfg : HNSW) (fuel : Nat)
    (q : Point) (idx : Nat) : List Nat → List Nd → EM Mt Unit
  | [], _ => EM.pure ()
  | l_c :: t, ep => do
    let ep' ← insertLayerStep dist cfg fuel q idx l_c ep
    insertLayersLoop dist cfg fuel q idx t ep'

/-- Phase 5 of `insert`, trailing loop: `new_neighbor` once per missing
layer (`for i = LL; i < l + 1; i++`). -/
def promoteLoop (idx : Nat) : Nat → EM Mt Unit
  | 0 => EM.pure ()
  | n + 1 => do
    new_neighbor idx
    promoteLoop idx n

/-- `HNSW.insert` (Algorithm 1).  The `Math.random` layer draw of
`select_layer` is the explicit argument `l`; `truthy` is JS truthiness on
the metadata type (the source guards `set_metadata` with
`if (metadata)`). -/
def insert (dist : Point → Point → ℚ) (cfg : HNSW) (truthy : Mt → Bool)
    (fuel : Nat) (q : Point) (md : Option Mt) (l : Nat) : EM Mt Unit := do
  let ep_index ← get_ep
  let nl ← get_num_layers
  let idx ← new_point q
  let _ ← (match md with
    | some m => if truthy m then set_metadata idx m else EM.pure ()
    | none => EM.pure ())
  let L : Int := (nl : Int) - 1
  let _ ← (match ep_index with
    | some epi => do
      let p0 ← get_point epi
      let d := dist q p0
      let routeLayers := (List.range (L - (l : Int)).toNat).map
        (fun j => (nl - 1) - j)
      let ep1 ← routeLoop dist fuel q routeLayers [(d, epi)]
      let cnt := (min L (l : Int) + 1).toNat
      let insLayers := (List.range cnt).map (fun j => cnt - 1 - j)
      insertLayersLoop dist cfg fuel q idx insLayers ep1
    | none => EM.pure ())
  let LL ← get_num_layers
  let _ ← (if LL < l + 1 then set_ep idx else EM.pure ())
  promoteLoop idx (l + 1 - LL)

/-- A `KNNResult`: id, distance and optional metadata. -/
structure KNNResult (Mt : Type) where
  id : Nat
  distance : ℚ
  metadata : Option Mt
deriving DecidableEq

instance : DecidableRel (fun a b : Nd => a.1 ≤ b.1) := fun a b =>
  inferInstanceAs (Decidable (a.1 ≤ b.1))

/-- `ep.sort(compareNode)`: a stable sort by distance. -/
def sortNodes (l : List Nd) : List Nd :=
  l.insertionSort (fun a b => a.1 ≤ b.1)

/-- Phase 1 of `knn_search`: route down to layer 1 with `ef = 1`,
reassigning the entry points unconditionally. -/
def knnRouteLoop (dist : Point → Point → ℚ) (fuel : Nat) (q : Point) :
    List Nat → List Nd → EM Mt (List Nd)
  | [], ep => EM.pure ep
  | l_c :: t, ep => do
    let ep' ← search_layer dist fuel q ep 1 l_c
    knnRouteLoop dist fuel q t ep'

/-- `HNSW.knn_search` (Algorithm 5): empty index gives `[]`; otherwise
route the upper layers, search layer 0 with `ef = this.ef`, sort
ascending by distance, keep the first `K`, and attach batched metadata. -/
def knn_search (dist : Point → Point → ℚ) (cfg : HNSW) (fuel : Nat)
    (q : Point) (K : Nat) : EM Mt (List (KNNResult Mt)) := do
  let ep_index ← get_ep
  match ep_index with
  | none => EM.pure []
  | some epi => do
    let nl ← get_num_layers
    let p0 ← get_point epi
    let d := dist q p0
    let L : Int := (nl : Int) - 1
    let layers := (List.range L.toNat).map (fun j => L.toNat - j)
    let ep1 ← knnRouteLoop dist fuel q layers [(d, epi)]
    let ep2 ← search_layer dist fuel q ep1 cfg.ef 0
    let ep_topk := (sortNodes ep2).take K
    let metadatas ← get_metadatas (ep_topk.map (·.2))
    EM.pure ((ep_topk.zip metadatas).map (fun pm =>
      { id := pm.1.2, distance := pm.1.1, metadata := pm.2 }))

/-- `HNSW.get_vector`: a point and its metadata. -/
def get_vector (idx : Nat) : EM Mt (Point × Option Mt) := do
  let p ← get_point idx
  let md ← get_metadata idx
  EM.pure (p, md)

/-- `EizenService.insertVector`: read `get_datasize` as the id to report,
run the HNSW insert, and return that id (the source wraps any raised
error, which the model propagates unchanged). -/
def insertVector (dist : Point → Point → ℚ) (cfg : HNSW)
    (truthy : Mt → Bool) (fuel : Nat) (q : Point) (md : Option Mt)
    (l : Nat) : EM Mt Nat := do
  let vectorId ← get_datasize
  insert dist cfg truthy fuel q md l
  EM.pure vectorId

/-! ### Adaptive batch splitting (`safe_get_many` / `safe_set_many`)

These private helpers of `EizenMemory` act on the raw string KV client,
below the codec, so they are modelled separately, parametrised by which
batches the backend fails (`catch` fires on any thrown error) and by the
backend's single-key read results.  The recursion of the source has no
termination measure — `half = floor(len >> 1)` is `0` for a singleton
batch, which is then split into `[]` and itself — so the model takes
fuel, with `none` meaning the source has not returned within that fuel
(for every fuel: divergence). -/

def safe_get_many (fails : List String → Bool)
    (get1 : String → Option String) :
    Nat → List String → Option (List (Option String))
  | 0, _ => none
  | fuel + 1, ks =>
    if fails ks then
      let half := ks.length / 2
      match safe_get_many fails get1 fuel (ks.take half),
          safe_get_many fails get1 fuel (ks.drop half) with
      | some a, some b => some (a ++ b)
      | _, _ => none
    else some (ks.map get1)

def safe_set_many (fails : List (String × String) → Bool) :
    Nat → List (String × String) → Option Unit
  | 0, _ => none
  | fuel + 1, es =>
    if fails es then
      let half := es.length / 2
      match safe_set_many fails fuel (es.take half),
          safe_set_many fails fuel (es.drop half) with
      | some _, some _ => some ()
      | _, _ => none
    else some ()

/-! ### Spec-side definitions for the neighbor-selection claim -/

/-- Modelled from the spec: the per-layer degree cap,
`M_max(0) = 2·M` and `M_max(L>0) = M`. -/
def Mmax (cfg : HNSW) (L : Nat) : Nat :=
  if L = 0 then cfg.m_max0 else cfg.m

/-- Take the `k` closest elements by repeatedly popping the minimum. -/
def takeMins : Nat → List Nd → List Nd
  | 0, _ => []
  | k + 1, l =>
    match popMin l with
    | (some x, rest) => x :: takeMins k rest
    | (none, _) => []

/-- Helper of `popSeq`: pop up to `n` minima. -/
def popSeqAux : Nat → List Nd → List Nd
  | 0, _ => []
  | n + 1, l =>
    match popMin l with
    | (some x, rest) => x :: popSeqAux n rest
    | (none, _) => []

/-- The full pop sequence of a heap: its elements in ascending pop order
(`popMin` removes exactly one element, so `l.length` pops drain `l`). -/
def popSeq (l : List Nd) : List Nd := popSeqAux l.length l

/-- Modelled from the spec: `R` consists of exactly `min k |C|`
candidates of smallest distance from `C`, ties broken arbitrarily — as a
multiset, `R` is drawn from `C`, has size `min k |C|`, and no candidate
left out of `R` is strictly closer than any member of `R`. -/
def IsKClosest (k : Nat) (C R : List Nd) : Prop :=
  R.length = min k C.length ∧ R.Subperm C ∧
    ∀ r ∈ R, ∀ c ∈ (C : Multiset Nd) - (R : Multiset Nd), r.1 ≤ c.1

/-- The write trace of `n` successive `new_neighbor idx` calls starting
at layer count `LL`: each creates the empty layer node, then bumps
`"layers"`. -/
def promTrace (LL idx : Nat) : Nat → List Key
  | 0 => []
  | n + 1 => Key.nbr LL idx :: Key.layers :: promTrace (LL + 1) idx n

/-- A trace consisting solely of layer-node upserts. -/
def NbrKeysOnly (t : List Key) : Prop :=
  ∀ k ∈ t, ∃ a b, k = Key.nbr a b

/-- A concrete computable instance of the abstracted distance parameter
(used only to build explicit stores and witnesses; every theorem below
quantifying over `dist` holds for any distance function, in particular
the source's cosine distance). -/
def sqDist (a b : Point) : ℚ :=
  ((a.zip b).map (fun p => (p.1 - p.2) ^ 2)).sum

/-- Another concrete instance of the distance parameter, built from
comparisons only (equality test and `min` on the head coordinates), so
that it evaluates definitionally on literal points; used for closed
witnesses whose run actually calls the distance. -/
def wDist (a b : Point) : ℚ :=
  if a = b then 0 else min (a.headD 0) (b.headD 0)

/-- JS truthiness on `number` metadata: `0` is falsy. -/
def natTruthy (n : Nat) : Bool := decide (n ≠ 0)

/-! ### Divergence of the bisection helpers on a failing singleton batch -/

theorem sgm_diverge (n : Nat) :
    safe_get_many (fun ks => decide (ks = ["k"])) (fun _ => none) n ["k"] =
      none := by
  induction n with
  | zero => rfl
  | succ m ih =>
    simp only [safe_get_many]
    rw [if_pos (by simp)]
    have hhalf : (["k"] : List String).length / 2 = 0 := by simp
    rw [hhalf]
    simp only [List.take_zero, List.drop_zero]
    rw [ih]
    cases safe_get_many (fun ks => decide (ks = ["k"])) (fun _ => none) m [] <;>
      rfl

theorem ssm_diverge (n : Nat) :
    safe_set_many (fun es => decide (es = [("k", "v")])) n [("k", "v")] =
      none := by
  induction n with
  | zero => rfl
  | succ m ih =>
    simp only [safe_set_many]
    rw [if_pos (by simp)]
    have hhalf : ([("k", "v")] : List (String × String)).length / 2 = 0 := by
      simp
    rw [hhalf]
    simp only [List.take_zero, List.drop_zero]
    rw [ih]
    cases safe_set_many (fun es => decide (es = [("k", "v")])) m [] <;> rfl

/-- C3: the adaptive bisection of `safe_get_many` / `safe_set_many` does
NOT stop at single-key granularity and a persistent single-key failure
does NOT propagate as an error.  With a backend that always fails the
batch `["k"]`, the source computes `half = 0` and recurses on `[]` and on
the original singleton, forever: in the fuel model, no amount of fuel
produces a result (the `catch` swallows every error, so no error can
reach the caller either). -/
theorem C3_single_key_bisection_diverges :
    (∀ fuel, safe_get_many (fun ks => decide (ks = ["k"]))
      (fun _ => none) fuel ["k"] = none) ∧
    (∀ fuel, safe_set_many (fun es => decide (es = [("k", "v")]))
      fuel [("k", "v")] = none) :=
  ⟨sgm_diverge, ssm_diverge⟩

/-! ### Frame lemmas: reads leave the store untouched -/

/-- A computation that never changes the store, whatever the outcome. -/
def ReadOnly (x : EM Mt α) : Prop := ∀ s, (x s).2 = s

theorem ReadOnly.bind {x : EM Mt α} {f : α → EM Mt β}
    (hx : ReadOnly x) (hf : ∀ a, ReadOnly (f a)) : ReadOnly (x >>= f) := by
  intro s
  rw [EM.run_bind]
  rcases h : x s with ⟨r, s'⟩
  have hs : s' = s := by have h2 := hx s; rw [h] at h2; exact h2
  cases r with
  | ok a => rw [← hs]; exact hf a s'
  | error e => exact hs

theorem ReadOnly.pure (a : α) : ReadOnly (@EM.pure Mt _ a) :=
  fun _ => rfl

theorem get_ep_readOnly : ReadOnly (@get_ep Mt) := fun _ => rfl

theorem get_num_layers_readOnly : ReadOnly (@get_num_layers Mt) :=
  fun _ => rfl

theorem get_datasize_readOnly : ReadOnly (@get_datasize Mt) :=
  fun _ => rfl

theorem get_point_readOnly (idx : Nat) :
    ReadOnly (@get_point Mt idx) := by
  intro s
  unfold get_point
  cases aGet s.pts idx <;> rfl

theorem get_points_readOnly (idxs : List Nat) :
    ReadOnly (@get_points Mt idxs) := fun _ => rfl

theorem get_neighbor_readOnly (layer idx : Nat) :
    ReadOnly (@get_neighbor Mt layer idx) := by
  intro s
  unfold get_neighbor
  cases aGet s.nbrs (layer, idx) <;> rfl

theorem get_neighbors_readOnly (layer : Nat) (idxs : List Nat) :
    ReadOnly (@get_neighbors Mt layer idxs) := by
  intro s
  unfold get_neighbors
  cases getNbrsAux s.nbrs layer idxs <;> rfl

theorem get_metadata_readOnly (idx : Nat) :
    ReadOnly (@get_metadata Mt idx) := fun _ => rfl

theorem get_metadatas_readOnly (idxs : List Nat) :
    ReadOnly (@get_metadatas Mt idxs) := fun _ => rfl

theorem searchLoop_readOnly (dist : Point → Point → ℚ) (q : Point)
    (l_c ef : Nat) :
    ∀ (fuel : Nat) (V : List Nat) (C W : List Nd),
      ReadOnly (@searchLoop Mt dist q l_c ef fuel V C W) := by
  intro fuel
  induction fuel with
  | zero => intro V C W s; rfl
  | succ n ih =>
    intro V C W
    show ReadOnly _
    unfold searchLoop
    split
    · exact ReadOnly.pure W
    · split
      · exact ReadOnly.pure W
      · split
        · exact ReadOnly.pure W
        · dsimp only
          split
          · exact ReadOnly.pure W
          · exact (get_neighbor_readOnly _ _).bind fun nb =>
              (get_points_readOnly _).bind fun points => ih _ _ _

theorem search_layer_readOnly (dist : Point → Point → ℚ) (fuel : Nat)
    (q : Point) (ep : List Nd) (ef : Nat) (l_c : Nat) :
    ReadOnly (@search_layer Mt dist fuel q ep ef l_c) := by
  unfold search_layer
  exact (searchLoop_readOnly dist q l_c ef fuel _ _ _).bind fun Wend =>
    ReadOnly.pure _

theorem knnRouteLoop_readOnly (dist : Point → Point → ℚ) (fuel : Nat)
    (q : Point) :
    ∀ (layers : List Nat) (ep : List Nd),
      ReadOnly (@knnRouteLoop Mt dist fuel q layers ep) := by
  intro layers
  induction layers with
  | nil => intro ep; exact ReadOnly.pure ep
  | cons l_c t ih =>
    intro ep
    exact (search_layer_readOnly dist fuel q ep 1 l_c).bind fun ep' => ih ep'

theorem routeLoop_readOnly (dist : Point → Point → ℚ) (fuel : Nat)
    (q : Point) :
    ∀ (layers : List Nat) (ep : List Nd),
      ReadOnly (@routeLoop Mt dist fuel q layers ep) := by
  intro layers
  induction layers with
  | nil => intro ep; exact ReadOnly.pure ep
  | cons i rest ih =>
    intro ep
    exact (search_layer_readOnly dist fuel q _ 1 i).bind fun W => ih _

/-- C9: `knn_search` performs no writes: whatever the store state and the
query, and whether the call returns results or propagates an error (a
missing point, a missing layer node, or unexhausted-loop fuel), the store
after the call equals the store before it. -/
theorem C9_knn_search_no_writes (dist : Point → Point → ℚ) (cfg : HNSW)
    (fuel : Nat) (q : Point) (K : Nat) (s : Store Mt) :
    ((knn_search dist cfg fuel q K) s).2 = s := by
  refine (?_ : ReadOnly (@knn_search Mt dist cfg fuel q K)) s
  unfold knn_search
  refine get_ep_readOnly.bind fun ep_index => ?_
  cases ep_index with
  | none => exact ReadOnly.pure []
  | some epi =>
    refine get_num_layers_readOnly.bind fun nl => ?_
    refine (get_point_readOnly epi).bind fun p0 => ?_
    refine (knnRouteLoop_readOnly dist fuel q _ _).bind fun ep1 => ?_
    refine (search_layer_readOnly dist fuel q ep1 cfg.ef 0).bind fun ep2 => ?_
    exact (get_metadatas_readOnly _).bind fun metadatas => ReadOnly.pure _



/-! ### The neighbor-selection heuristic keeps the closest candidates -/

theorem popMin_fst (l : List Nd) : (popMin l).1 = findMin l := by
  induction l with
  | nil => rfl
  | cons x t ih =>
    simp only [popMin, findMin]
    rcases hf : findMin t with _ | y
    · rfl
    · dsimp only
      by_cases hle : x.1 ≤ y.1
      · rw [if_pos hle, if_pos hle]
      · rw [if_neg hle, if_neg hle]
        show (popMin t).1 = some y
        rw [ih, hf]

theorem popMin_some_of_ne_nil {l : List Nd} (h : l ≠ []) :
    ∃ x rest, popMin l = (some x, rest) := by
  rcases hp : popMin l with ⟨x?, rest⟩
  cases x? with
  | none =>
    have h1 := popMin_fst l
    rw [hp] at h1
    exact absurd (findMin_eq_none.mp h1.symm) h
  | some x => exact ⟨x, rest, rfl⟩

theorem findMin_mem : ∀ {l : List Nd} {x : Nd}, findMin l = some x →
    x ∈ l := by
  intro l
  induction l with
  | nil => intro x h; simp [findMin] at h
  | cons a t ih =>
    intro x h
    simp only [findMin] at h
    rcases hf : findMin t with _ | y <;> rw [hf] at h <;> dsimp only at h
    · cases h
      exact List.mem_cons_self _ _
    · by_cases hle : a.1 ≤ y.1
      · rw [if_pos hle] at h
        cases h
        exact List.mem_cons_self _ _
      · rw [if_neg hle] at h
        cases h
        exact List.mem_cons_of_mem a (ih hf)

theorem findMin_le : ∀ {l : List Nd} {x : Nd}, findMin l = some x →
    ∀ y ∈ l, x.1 ≤ y.1 := by
  intro l
  induction l with
  | nil => intro x h; simp [findMin] at h
  | cons a t ih =>
    intro x h
    simp only [findMin] at h
    rcases hf : findMin t with _ | y <;> rw [hf] at h <;> dsimp only at h
    · rw [findMin_eq_none.mp hf]
      cases h
      intro z hz
      rcases List.mem_cons.mp hz with rfl | hz
      · exact le_refl _
      · simp at hz
    · by_cases hle : a.1 ≤ y.1
      · rw [if_pos hle] at h
        cases h
        intro z hz
        rcases List.mem_cons.mp hz with rfl | hz
        · exact le_refl _
        · exact le_trans hle (ih hf z hz)
      · rw [if_neg hle] at h
        cases h
        intro z hz
        rcases List.mem_cons.mp hz with rfl | hz
        · exact le_of_not_le hle
        · exact ih hf z hz

theorem popMin_perm {l : List Nd} {x : Nd} {rest : List Nd}
    (h : popMin l = (some x, rest)) : List.Perm l (x :: rest) := by
  induction l generalizing x rest with
  | nil => simp [popMin] at h
  | cons a t ih =>
    simp only [popMin] at h
    rcases hf : findMin t with _ | y <;> rw [hf] at h <;> dsimp only at h
    · injection h with h1 h2
      injection h1 with h1
      rw [findMin_eq_none.mp hf, ← h1, ← h2]
    · by_cases hle : a.1 ≤ y.1
      · rw [if_pos hle] at h
        injection h with h1 h2
        injection h1 with h1
        rw [← h1, ← h2]
      · rw [if_neg hle] at h
        injection h with h1 h2
        have hpop : popMin t = (some x, (popMin t).2) := by
          rw [Prod.ext_iff]
          exact ⟨h1, rfl⟩
        have hperm := ih hpop
        rw [← h2]
        exact (hperm.cons a).trans (List.Perm.swap x a _)

theorem popMin_min {l : List Nd} {x : Nd} {rest : List Nd}
    (h : popMin l = (some x, rest)) : ∀ y ∈ l, x.1 ≤ y.1 := by
  have hf : findMin l = some x := by
    have h1 := popMin_fst l
    rw [h] at h1
    exact h1.symm
  exact findMin_le hf

/-- When the head is already minimal, `pop` takes it and keeps the tail
intact. -/
theorem popMin_cons_of_min {x : Nd} {t : List Nd}
    (h : ∀ y ∈ t, x.1 ≤ y.1) : popMin (x :: t) = (some x, t) := by
  simp only [popMin]
  rcases hf : findMin t with _ | y
  · dsimp only
    rw [findMin_eq_none.mp hf]
  · dsimp only
    rw [if_pos (h y (findMin_mem hf))]

theorem popSeq_nil : popSeq [] = [] := rfl

theorem popSeq_cons {l : List Nd} {x : Nd} {rest : List Nd}
    (hne : l ≠ []) (h : popMin l = (some x, rest)) :
    popSeq l = x :: popSeq rest := by
  have hl := popMin_snd_length l hne
  rw [h] at hl
  simp only at hl
  unfold popSeq
  rw [← hl]
  simp only [popSeqAux, h]

theorem popSeq_perm (l : List Nd) : List.Perm (popSeq l) l := by
  suffices hgen : ∀ n (l : List Nd), l.length = n → List.Perm (popSeq l) l by
    exact hgen l.length l rfl
  intro n
  induction n with
  | zero =>
    intro l hn
    rw [List.length_eq_zero.mp hn, popSeq_nil]
  | succ m ih =>
    intro l hn
    have hne : l ≠ [] := by
      intro h0
      rw [h0] at hn
      simp at hn
    obtain ⟨x, rest, hp⟩ := popMin_some_of_ne_nil hne
    have hlen : rest.length = m := by
      have hl := popMin_snd_length l hne
      rw [hp] at hl
      simp at hl
      omega
    rw [popSeq_cons hne hp]
    exact ((ih rest hlen).cons x).trans (popMin_perm hp).symm

theorem takeMins_eq_nil (k : Nat) : takeMins k [] = [] := by
  cases k <;> rfl

theorem takeMins_popSeq (k : Nat) (l : List Nd) :
    takeMins k (popSeq l) = takeMins k l := by
  induction k generalizing l with
  | zero => rfl
  | succ n ih =>
    by_cases hne : l = []
    · rw [hne, popSeq_nil]
    · obtain ⟨x, rest, hp⟩ := popMin_some_of_ne_nil hne
      have hseq := popSeq_cons hne hp
      have hmin : ∀ y ∈ popSeq rest, x.1 ≤ y.1 := by
        intro y hy
        exact popMin_min hp y
          ((popMin_perm hp).mem_iff.mpr
            (List.mem_cons_of_mem x ((popSeq_perm rest).subset hy)))
      calc takeMins (n + 1) (popSeq l)
          = takeMins (n + 1) (x :: popSeq rest) := by rw [hseq]
        _ = x :: takeMins n (popSeq rest) := by
            simp only [takeMins, popMin_cons_of_min hmin]
        _ = x :: takeMins n rest := by rw [ih]
        _ = takeMins (n + 1) l := by simp only [takeMins, hp]

theorem takeMins_length (k : Nat) (l : List Nd) :
    (takeMins k l).length = min k l.length := by
  induction k generalizing l with
  | zero => simp [takeMins]
  | succ n ih =>
    by_cases hne : l = []
    · simp [hne, takeMins_eq_nil]
    · obtain ⟨x, rest, hp⟩ := popMin_some_of_ne_nil hne
      have hlen := popMin_snd_length l hne
      rw [hp] at hlen
      simp only at hlen
      simp only [takeMins, hp, List.length_cons, ih]
      omega

theorem takeMins_subperm (k : Nat) (l : List Nd) :
    (takeMins k l).Subperm l := by
  induction k generalizing l with
  | zero => simp [takeMins]
  | succ n ih =>
    by_cases hne : l = []
    · rw [hne, takeMins_eq_nil]
    · obtain ⟨x, rest, hp⟩ := popMin_some_of_ne_nil hne
      simp only [takeMins, hp]
      exact ((List.subperm_cons x).mpr (ih rest)).trans
        (popMin_perm hp).symm.subperm

theorem takeMins_min (k : Nat) (l : List Nd) :
    ∀ r ∈ takeMins k l,
      ∀ c ∈ (l : Multiset Nd) - (takeMins k l : Multiset Nd), r.1 ≤ c.1 := by
  induction k generalizing l with
  | zero => simp [takeMins]
  | succ n ih =>
    by_cases hne : l = []
    · simp [hne, takeMins_eq_nil]
    · obtain ⟨x, rest, hp⟩ := popMin_some_of_ne_nil hne
      simp only [takeMins, hp]
      have hl : (l : Multiset Nd) = x ::ₘ (rest : Multiset Nd) := by
        rw [Multiset.cons_coe]
        exact Multiset.coe_eq_coe.mpr (popMin_perm hp)
      have hdiff :
          (l : Multiset Nd) - ((x :: takeMins n rest : List Nd) : Multiset Nd) =
            (rest : Multiset Nd) - (takeMins n rest : Multiset Nd) := by
        rw [hl, ← Multiset.cons_coe, Multiset.sub_cons,
          Multiset.erase_cons_head]
      intro r hr c hc
      rw [hdiff] at hc
      have hcrest : c ∈ rest :=
        Multiset.mem_coe.mp (Multiset.mem_of_le (Multiset.sub_le_self _ _) hc)
      rcases List.mem_cons.mp hr with rfl | hr
      · exact popMin_min hp c
          ((popMin_perm hp).mem_iff.mpr (List.mem_cons_of_mem _ hcrest))
      · exact ih rest r hr c hc

/-- `selPhase1` at a state where the loop guard fails returns `(R, W_d)`. -/
theorem selPhase1_stop {M : Nat} {W R W_d : List Nd}
    (h : ¬(W ≠ [] ∧ R.length < M)) :
    selPhase1 M W R W_d = (R, W_d) := by
  cases W with
  | nil => rfl
  | cons x t =>
    show selPhase1Go M (x :: t).length (x :: t) R W_d = _
    rw [List.length_cons, selPhase1Go, if_neg h]

/-- `selPhase2` at a state where the loop guard fails returns `R`. -/
theorem selPhase2_stop {M : Nat} {W_d R : List Nd}
    (h : ¬(W_d ≠ [] ∧ R.length < M)) :
    selPhase2 M W_d R = R := by
  cases W_d with
  | nil => rfl
  | cons x t =>
    show selPhase2Go M (x :: t).length (x :: t) R = _
    rw [List.length_cons, selPhase2Go, if_neg h]

/-- Unfolding `selPhase1` one pop when the loop guard holds. -/
theorem selPhase1_step {M : Nat} {W R W_d : List Nd}
    (h : W ≠ [] ∧ R.length < M) {e : Nd} {W' : List Nd}
    (hp : popMin W = (some e, W')) :
    selPhase1 M W R W_d =
      if (match findMin R with
          | none => true
          | some rt => decide (e.1 < rt.1)) = true
      then selPhase1 M W' (R ++ [e]) W_d
      else selPhase1 M W' R (W_d ++ [e]) := by
  obtain ⟨x, t, rfl⟩ := List.exists_cons_of_ne_nil h.1
  have hlen : W'.length = t.length := by
    have hl := popMin_snd_length (x :: t) h.1
    rw [hp] at hl
    simpa using hl
  show selPhase1Go M (x :: t).length (x :: t) R W_d = _
  rw [List.length_cons, selPhase1Go, if_pos h, hp]
  dsimp only
  simp only [selPhase1, hlen]

/-- Unfolding `selPhase2` one pop when the loop guard holds. -/
theorem selPhase2_step {M : Nat} {W_d R : List Nd}
    (h : W_d ≠ [] ∧ R.length < M) {d : Nd} {W' : List Nd}
    (hp : popMin W_d = (some d, W')) :
    selPhase2 M W_d R = selPhase2 M W' (R ++ [d]) := by
  obtain ⟨x, t, rfl⟩ := List.exists_cons_of_ne_nil h.1
  have hlen : W'.length = t.length := by
    have hl := popMin_snd_length (x :: t) h.1
    rw [hp] at hl
    simpa using hl
  show selPhase2Go M (x :: t).length (x :: t) R = _
  rw [List.length_cons, selPhase2Go, if_pos h, hp]
  simp only [selPhase2, hlen]

/-- Phase 1 after the first acceptance: candidates pop in ascending
order, so every later candidate fails the strict `e[0] < top(R)[0]` test
and lands in the discarded heap; for `M ≥ 2` the loop drains `W` into
`W_d` in pop order. -/
theorem selPhase1_after_first {M : Nat} (hM : 1 < M) :
    ∀ (n : Nat) (W : List Nd), W.length = n → ∀ (r : Nd) (W_d : List Nd),
      (∀ y ∈ W, r.1 ≤ y.1) →
      selPhase1 M W [r] W_d = ([r], W_d ++ popSeq W) := by
  intro n
  induction n with
  | zero =>
    intro W hn r W_d _
    rw [List.length_eq_zero.mp hn, popSeq_nil]
    rw [selPhase1_stop (by simp)]
    simp
  | succ m ih =>
    intro W hn r W_d hmin
    have hne : W ≠ [] := by
      intro h0
      rw [h0] at hn
      simp at hn
    obtain ⟨e, W', hp⟩ := popMin_some_of_ne_nil hne
    have hlen : W'.length = m := by
      have hl := popMin_snd_length W hne
      rw [hp] at hl
      simp only at hl
      omega
    have hre : r.1 ≤ e.1 :=
      hmin e ((popMin_perm hp).mem_iff.mpr (List.mem_cons_self e W'))
    rw [selPhase1_step ⟨hne, by simpa using hM⟩ hp]
    have hfr : findMin [r] = some r := rfl
    rw [hfr]
    dsimp only
    have haccept : decide (e.1 < r.1) = false :=
      decide_eq_false (not_lt.mpr hre)
    rw [haccept]
    simp only [Bool.false_eq_true, if_false]
    rw [ih W' hlen r (W_d ++ [e])
      (fun y hy => hmin y ((popMin_perm hp).mem_iff.mpr
        (List.mem_cons_of_mem e hy)))]
    rw [popSeq_cons hne hp]
    simp

/-- Phase 2 refills `R` with the `M - |R|` closest discarded candidates,
in ascending pop order. -/
theorem selPhase2_spec (M : Nat) :
    ∀ (n : Nat) (W_d : List Nd), W_d.length = n → ∀ (R : List Nd),
      selPhase2 M W_d R = R ++ takeMins (M - R.length) W_d := by
  intro n
  induction n with
  | zero =>
    intro W_d hn R
    rw [List.length_eq_zero.mp hn]
    rw [selPhase2_stop (by simp)]
    simp [takeMins_eq_nil]
  | succ m ih =>
    intro W_d hn R
    have hne : W_d ≠ [] := by
      intro h0
      rw [h0] at hn
      simp at hn
    by_cases hR : R.length < M
    · obtain ⟨d, W', hp⟩ := popMin_some_of_ne_nil hne
      have hlen : W'.length = m := by
        have hl := popMin_snd_length W_d hne
        rw [hp] at hl
        simp only at hl
        omega
      rw [selPhase2_step ⟨hne, hR⟩ hp, ih W' hlen (R ++ [d])]
      have harith : M - R.length = (M - (R ++ [d]).length) + 1 := by
        simp only [List.length_append, List.length_cons, List.length_nil]
        omega
      rw [harith]
      simp only [takeMins, hp]
      simp
    · have harith : M - R.length = 0 := by omega
      rw [selPhase2_stop (by intro hcon; exact hR hcon.2)]
      simp [harith, takeMins]

/-- The accept/discard loop followed by the pruned-connection refill is
extensionally the `min(M, |C|)` closest candidates in pop order. -/
theorem selPhase_eq_takeMins (M : Nat) (C : List Nd) :
    selPhase2 M (selPhase1 M C [] []).2 (selPhase1 M C [] []).1 =
      takeMins M C := by
  by_cases hM0 : M = 0
  · rw [hM0]
    rw [selPhase1_stop (by simp)]
    rw [selPhase2_stop (by simp)]
    rfl
  · by_cases hC : C = []
    · rw [hC]
      rw [selPhase1_stop (by simp)]
      rw [selPhase2_stop (by simp)]
      rw [takeMins_eq_nil]
    · obtain ⟨e1, C₁, hp⟩ := popMin_some_of_ne_nil hC
      have hmin1 : ∀ y ∈ C₁, e1.1 ≤ y.1 := fun y hy =>
        popMin_min hp y ((popMin_perm hp).mem_iff.mpr
          (List.mem_cons_of_mem e1 hy))
      have hfirst : selPhase1 M C [] [] = selPhase1 M C₁ [e1] [] := by
        rw [selPhase1_step ⟨hC, by simpa using Nat.pos_of_ne_zero hM0⟩ hp]
        have hfr : findMin ([] : List Nd) = none := rfl
        rw [hfr]
        simp
      by_cases hM1 : M = 1
      · rw [hfirst, hM1]
        rw [selPhase1_stop (by simp)]
        rw [selPhase2_stop (by simp)]
        have h1 : takeMins 1 C = e1 :: takeMins 0 C₁ := by
          show takeMins (0 + 1) C = _
          simp only [takeMins, hp]
        rw [h1]
        rfl
      · have hM2 : 1 < M := by
          rcases Nat.exists_eq_succ_of_ne_zero hM0 with ⟨k, hk⟩
          omega
        rw [hfirst,
          selPhase1_after_first hM2 C₁.length C₁ rfl e1 [] hmin1]
        simp only [List.nil_append]
        rw [selPhase2_spec M (popSeq C₁).length (popSeq C₁) rfl [e1]]
        simp only [List.length_cons, List.length_nil]
        have htm : takeMins M C = e1 :: takeMins (M - 1) C₁ := by
          rcases Nat.exists_eq_succ_of_ne_zero hM0 with ⟨k, hk⟩
          rw [hk]
          simp only [takeMins, hp]
          congr 1
        rw [htm, takeMins_popSeq]
        rfl

theorem select_neighbors_eq_takeMins (cfg : HNSW) (q : Point)
    (C : List Nd) (l_c : Nat) :
    select_neighbors cfg q C l_c true =
      takeMins (if l_c > 0 then cfg.m else cfg.m_max0) C :=
  selPhase_eq_takeMins (if l_c > 0 then cfg.m else cfg.m_max0) C

/-- C7: for every query, candidate list and layer, `select_neighbors`
with `keepPrunedConnections = true` returns exactly the
`min(M_max(l_c), |C|)` candidates of smallest distance (as a multiset,
ties broken arbitrarily): the implemented accept/discard loop followed
by backfilling from the discarded heap is equivalent to simply keeping
the `M_max(l_c)` closest candidates. -/
theorem C7_select_neighbors_keeps_closest (cfg : HNSW) (q : Point)
    (C : List Nd) (l_c : Nat) :
    IsKClosest (Mmax cfg l_c) C (select_neighbors cfg q C l_c true) := by
  have hMeq : (if l_c > 0 then cfg.m else cfg.m_max0) = Mmax cfg l_c := by
    unfold Mmax
    by_cases h : l_c = 0 <;> simp [h]
  rw [IsKClosest, select_neighbors_eq_takeMins, hMeq]
  exact ⟨takeMins_length _ _, takeMins_subperm _ _, takeMins_min _ _⟩

/-! ### Record lemmas and per-operation effect lemmas -/

theorem aGet_aSet_self {κ α : Type} [DecidableEq κ]
    (l : List (κ × α)) (k : κ) (v : α) :
    aGet (aSet l k v) k = some v := by
  induction l with
  | nil => simp [aSet, aGet]
  | cons p t ih =>
    by_cases h : p.1 = k
    · simp [aSet, aGet, h]
    · simp [aSet, aGet, h, ih]

theorem aGet_aSet_ne {κ α : Type} [DecidableEq κ]
    (l : List (κ × α)) (k k' : κ) (v : α) (h : k' ≠ k) :
    aGet (aSet l k v) k' = aGet l k' := by
  have h1 : ¬ k = k' := fun hc => h hc.symm
  induction l with
  | nil =>
    simp only [aSet, aGet]
    rw [if_neg h1]
  | cons p t ih =>
    by_cases hp : p.1 = k
    · rw [aSet, if_pos hp, aGet, aGet]
      have h2 : ¬ p.1 = k' := by rw [hp]; exact h1
      rw [if_neg h1, if_neg h2]
    · rw [aSet, if_neg hp, aGet, aGet, ih]

theorem pruneLoop_readOnly (dist : Point → Point → ℚ) (cfg : HNSW)
    (l_c M : Nat) :
    ∀ (es : List Nd) (nodes : Graph),
      ReadOnly (@pruneLoop Mt dist cfg l_c M es nodes) := by
  intro es
  induction es with
  | nil => intro nodes; exact ReadOnly.pure nodes
  | cons e t ih =>
    intro nodes
    show ReadOnly _
    unfold pruneLoop
    dsimp only
    split
    · exact (get_point_readOnly _).bind fun pe => ih _
    · exact ih nodes

/-- Running the batched upsert: all layer nodes written, one log entry
per record key, nothing else touched. -/
theorem upsert_neighbors_run (layer : Nat) :
    ∀ (nodes : Graph) (s : Store Mt),
      upsert_neighbors layer nodes s =
        (.ok (),
          { s with
            nbrs := nodes.foldl (fun nb p => aSet nb (layer, p.1) p.2) s.nbrs
            log := s.log ++ nodes.map (fun p => Key.nbr layer p.1) }) := by
  intro nodes
  induction nodes with
  | nil =>
    intro s
    have hrun : @upsert_neighbors Mt layer [] s = (Except.ok (), s) := rfl
    rw [hrun]
    simp
  | cons p t ih =>
    intro s
    have hrun : @upsert_neighbors Mt layer (p :: t) s =
        upsert_neighbors layer t
          { s with
            nbrs := aSet s.nbrs (layer, p.1) p.2
            log := s.log ++ [Key.nbr layer p.1] } := rfl
    rw [hrun, ih]
    simp
/-- Successful `insertLayerStep` decomposed: the reads happen on the
unchanged store, and the final store is the two upserts applied in
order. -/
theorem insertLayerStep_ok_decomp {dist : Point → Point → ℚ} {cfg : HNSW}
    {fuel : Nat} {q : Point} {idx l_c : Nat} {ep : List Nd} {s s' : Store Mt}
    {ep' : List Nd}
    (h : insertLayerStep dist cfg fuel q idx l_c ep s = (.ok ep', s')) :
    ∃ W nodes nodes2,
      search_layer dist fuel q ep cfg.ef_construction l_c s = (.ok W, s) ∧
      get_neighbors l_c ((select_neighbors cfg q W l_c).map (fun x => x.2)) s
        = (.ok nodes, s) ∧
      pruneLoop dist cfg l_c (if l_c = 0 then cfg.m_max0 else cfg.m)
        (select_neighbors cfg q W l_c)
        ((select_neighbors cfg q W l_c).foldl
          (fun g e =>
            match aGet g e.2 with
            | some nd => aSet g e.2 (aSet nd idx e.1)
            | none => g) nodes) s = (.ok nodes2, s) ∧
      ep' = W.map (fun e => (e.1, e.2)) ∧
      s' = ((upsert_neighbors l_c nodes2)
        (((upsert_neighbor l_c idx
          ((select_neighbors cfg q W l_c).foldl
            (fun nn e => aSet nn e.2 e.1) [])) s).2)).2 := by
  unfold insertLayerStep at h
  obtain ⟨W, s1, hW, h⟩ := EM.bind_ok h
  have hs1 : s1 = s := by
    have hro := @search_layer_readOnly Mt dist fuel q ep
      cfg.ef_construction l_c s
    rw [hW] at hro
    exact hro
  rw [hs1] at hW h
  obtain ⟨nodes, s2, hN, h⟩ := EM.bind_ok h
  have hs2 : s2 = s := by
    have hro := @get_neighbors_readOnly Mt l_c
      ((select_neighbors cfg q W l_c).map (fun x => x.2)) s
    rw [hN] at hro
    exact hro
  rw [hs2] at hN h
  obtain ⟨nodes2, s3, hP, h⟩ := EM.bind_ok h
  have hs3 : s3 = s := by
    have hro := @pruneLoop_readOnly Mt dist cfg l_c
      (if l_c = 0 then cfg.m_max0 else cfg.m) (select_neighbors cfg q W l_c)
      ((select_neighbors cfg q W l_c).foldl
        (fun g e =>
          match aGet g e.2 with
          | some nd => aSet g e.2 (aSet nd idx e.1)
          | none => g) nodes) s
    rw [hP] at hro
    exact hro
  rw [hs3] at hP h
  obtain ⟨u1, s4, hU1, h⟩ := EM.bind_ok h
  obtain ⟨u2, s5, hU2, h⟩ := EM.bind_ok h
  refine ⟨W, nodes, nodes2, hW, hN, hP, ?_, ?_⟩
  · have hpure : @EM.pure Mt _ (W.map (fun e => (e.1, e.2))) s5 =
        (.ok (W.map (fun e => (e.1, e.2))), s5) := rfl
    rw [hpure] at h
    injection h with h1 h2
    injection h1 with h1
    exact h1.symm
  · have hpure : @EM.pure Mt _ (W.map (fun e => (e.1, e.2))) s5 =
        (.ok (W.map (fun e => (e.1, e.2))), s5) := rfl
    rw [hpure] at h
    injection h with h1 h2
    have h4 : s4 = ((upsert_neighbor l_c idx
        ((select_neighbors cfg q W l_c).foldl
          (fun nn e => aSet nn e.2 e.1) [])) s).2 := by
      have : @upsert_neighbor Mt l_c idx
          ((select_neighbors cfg q W l_c).foldl
            (fun nn e => aSet nn e.2 e.1) []) s =
          (.ok (), ((upsert_neighbor l_c idx
            ((select_neighbors cfg q W l_c).foldl
              (fun nn e => aSet nn e.2 e.1) [])) s).2) := rfl
      rw [this] at hU1
      injection hU1 with hU1a hU1b
      exact hU1b.symm
    have h5 : s5 = ((upsert_neighbors l_c nodes2) s4).2 := by
      have : @upsert_neighbors Mt l_c nodes2 s4 =
          (.ok (), ((upsert_neighbors l_c nodes2) s4).2) := rfl
      rw [this] at hU2
      injection hU2 with hU2a hU2b
      exact hU2b.symm
    rw [h2.symm, h5, h4]

theorem new_point_run (q : Point) (s : Store Mt) :
    new_point q s =
      (.ok (s.pointsCell.getD 0),
        { s with
          pts := aSet s.pts (s.pointsCell.getD 0) q
          pointsCell := some (s.pointsCell.getD 0 + 1)
          log := s.log ++ [Key.point (s.pointsCell.getD 0), Key.points] }) :=
  rfl

theorem new_neighbor_run (idx : Nat) (s : Store Mt) :
    new_neighbor idx s =
      (.ok (),
        { s with
          nbrs := aSet s.nbrs (s.layersCell.getD 0, idx) []
          layersCell := some (s.layersCell.getD 0 + 1)
          log := s.log ++
            [Key.nbr (s.layersCell.getD 0) idx, Key.layers] }) := by
  show (Except.ok (),
    { s with
      nbrs := aSet s.nbrs (s.layersCell.getD 0, idx) []
      layersCell := some (s.layersCell.getD 0 + 1)
      log := (s.log ++ [Key.nbr (s.layersCell.getD 0) idx]) ++
        [Key.layers] }) = _
  simp

/-- Running `n` promotions: the points, metadata, points counter and
entry point are untouched; the log gains the alternating layer-node /
layer-counter writes. -/
theorem promoteLoop_ok_effect {idx : Nat} :
    ∀ (n : Nat) (s s' : Store Mt) (u : Unit),
      @promoteLoop Mt idx n s = (.ok u, s') →
      s'.pts = s.pts ∧ s'.metas = s.metas ∧ s'.pointsCell = s.pointsCell ∧
      s'.epCell = s.epCell ∧
      s'.log = s.log ++ promTrace (s.layersCell.getD 0) idx n := by
  intro n
  induction n with
  | zero =>
    intro s s' u h
    have hp : @promoteLoop Mt idx 0 s = (.ok (), s) := rfl
    rw [hp] at h
    injection h with h1 h2
    rw [← h2]
    simp [promTrace]
  | succ m ih =>
    intro s s' u h
    obtain ⟨u1, s1, hnn, h⟩ := EM.bind_ok h
    rw [new_neighbor_run] at hnn
    injection hnn with hnn1 hnn2
    rw [← hnn2] at h
    obtain ⟨e1, e2, e3, e4, e5⟩ := ih _ _ _ h
    refine ⟨by rw [e1], by rw [e2], by rw [e3], by rw [e4], ?_⟩
    rw [e5]
    simp [promTrace]

/-- A successful `insertLayerStep` leaves every store component except
the layer nodes unchanged, appending only layer-node keys to the log. -/
theorem insertLayerStep_ok_effect {dist : Point → Point → ℚ} {cfg : HNSW}
    {fuel : Nat} {q : Point} {idx l_c : Nat} {ep : List Nd}
    {s s' : Store Mt} {ep' : List Nd}
    (h : insertLayerStep dist cfg fuel q idx l_c ep s = (.ok ep', s')) :
    s'.pts = s.pts ∧ s'.metas = s.metas ∧ s'.pointsCell = s.pointsCell ∧
    s'.epCell = s.epCell ∧ s'.layersCell = s.layersCell ∧
    ∃ t, s'.log = s.log ++ t ∧ NbrKeysOnly t := by
  obtain ⟨W, nodes, nodes2, hW, hN, hP, hep, hs'⟩ := insertLayerStep_ok_decomp h
  subst hs'
  rw [upsert_neighbors_run]
  refine ⟨rfl, rfl, rfl, rfl, rfl,
    ⟨Key.nbr l_c idx :: nodes2.map (fun p => Key.nbr l_c p.1), ?_, ?_⟩⟩
  · simp [upsert_neighbor]
  · intro k hk
    rcases List.mem_cons.mp hk with rfl | hk
    · exact ⟨l_c, idx, rfl⟩
    · obtain ⟨p, hp, hkp⟩ := List.mem_map.mp hk
      exact ⟨l_c, p.1, hkp.symm⟩

theorem nbrKeysOnly_append {t1 t2 : List Key}
    (h1 : NbrKeysOnly t1) (h2 : NbrKeysOnly t2) : NbrKeysOnly (t1 ++ t2) := by
  intro k hk
  rcases List.mem_append.mp hk with hk | hk
  · exact h1 k hk
  · exact h2 k hk

/-- A successful phase-2 loop leaves every component except the layer
nodes unchanged, appending only layer-node keys to the log. -/
theorem insertLayersLoop_ok_effect {dist : Point → Point → ℚ} {cfg : HNSW}
    {fuel : Nat} {q : Point} {idx : Nat} :
    ∀ (ls : List Nat) (ep : List Nd) (s s' : Store Mt) (u : Unit),
      @insertLayersLoop Mt dist cfg fuel q idx ls ep s = (.ok u, s') →
      s'.pts = s.pts ∧ s'.metas = s.metas ∧ s'.pointsCell = s.pointsCell ∧
      s'.epCell = s.epCell ∧ s'.layersCell = s.layersCell ∧
      ∃ t, s'.log = s.log ++ t ∧ NbrKeysOnly t := by
  intro ls
  induction ls with
  | nil =>
    intro ep s s' u h
    have hp : @insertLayersLoop Mt dist cfg fuel q idx [] ep s =
        (.ok (), s) := rfl
    rw [hp] at h
    injection h with h1 h2
    rw [← h2]
    exact ⟨rfl, rfl, rfl, rfl, rfl, [], by simp, by intro k hk; simp at hk⟩
  | cons l_c tl ih =>
    intro ep s s' u h
    obtain ⟨ep1, s1, hstep, h⟩ := EM.bind_ok h
    obtain ⟨e1, e2, e3, e4, e5, t1, hl1, hn1⟩ := insertLayerStep_ok_effect hstep
    obtain ⟨f1, f2, f3, f4, f5, t2, hl2, hn2⟩ := ih _ _ _ _ h
    refine ⟨by rw [f1, e1], by rw [f2, e2], by rw [f3, e3], by rw [f4, e4],
      by rw [f5, e5], t1 ++ t2, ?_, nbrKeysOnly_append hn1 hn2⟩
    rw [hl2, hl1]
    simp

/-- The metadata record resulting from the `if (metadata)` guard of
`insert`. -/
def metaVal (truthy : Mt → Bool) (md : Option Mt) (idx : Nat)
    (metas : List (Nat × Mt)) : List (Nat × Mt) :=
  match md with
  | some m => if truthy m then aSet metas idx m else metas
  | none => metas

/-- The write trace of the `if (metadata)` guard of `insert`. -/
def metaTrace (truthy : Mt → Bool) (md : Option Mt) (idx : Nat) : List Key :=
  match md with
  | some m => if truthy m then [Key.meta idx] else []
  | none => []

/-- The metadata phase of `insert` (`if (metadata) set_metadata`),
summarised as a record update. -/
theorem insert_meta_effect {truthy : Mt → Bool} {md : Option Mt} {idx : Nat}
    {u : Unit} {s2 s3 : Store Mt}
    (h : (match md with
      | some m => if truthy m then set_metadata idx m else EM.pure ()
      | none => EM.pure ()) s2 = (.ok u, s3)) :
    s3 = { s2 with
      metas := metaVal truthy md idx s2.metas
      log := s2.log ++ metaTrace truthy md idx } := by
  cases md with
  | none =>
    dsimp only at h
    have hrun : @EM.pure Mt _ () s2 = (.ok (), s2) := rfl
    rw [hrun] at h
    injection h with h1 h2
    rw [← h2]
    simp [metaVal, metaTrace]
  | some m =>
    dsimp only at h
    by_cases htm : truthy m = true
    · rw [if_pos htm] at h
      have hrun : set_metadata idx m s2 =
          (.ok (), { s2 with
            metas := aSet s2.metas idx m
            log := s2.log ++ [Key.meta idx] }) := rfl
      rw [hrun] at h
      injection h with h1 h2
      rw [← h2]
      simp [metaVal, metaTrace, htm]
    · rw [if_neg htm] at h
      have hrun : @EM.pure Mt _ () s2 = (.ok (), s2) := rfl
      rw [hrun] at h
      injection h with h1 h2
      rw [← h2]
      simp [metaVal, metaTrace, htm]

/-- The populated-index branch of `insert` (routing plus per-layer
insertion): only layer nodes change, only layer-node keys are logged. -/
theorem insert_branch_effect {dist : Point → Point → ℚ} {cfg : HNSW}
    {fuel : Nat} {q : Point} {idx l : Nat} {nl : Nat}
    {ep_index : Option Nat} {u : Unit} {s3 s4 : Store Mt}
    (h : (match ep_index with
      | some epi => do
        let p0 ← get_point epi
        let d := dist q p0
        let routeLayers := (List.range (((nl : Int) - 1) - (l : Int)).toNat).map
          (fun j => (nl - 1) - j)
        let ep1 ← routeLoop dist fuel q routeLayers [(d, epi)]
        let cnt := (min ((nl : Int) - 1) (l : Int) + 1).toNat
        let insLayers := (List.range cnt).map (fun j => cnt - 1 - j)
        insertLayersLoop dist cfg fuel q idx insLayers ep1
      | none => EM.pure ()) s3 = (.ok u, s4)) :
    s4.pts = s3.pts ∧ s4.metas = s3.metas ∧ s4.pointsCell = s3.pointsCell ∧
    s4.epCell = s3.epCell ∧ s4.layersCell = s3.layersCell ∧
    ∃ t, s4.log = s3.log ++ t ∧ NbrKeysOnly t := by
  cases ep_index with
  | none =>
    dsimp only at h
    have hrun : @EM.pure Mt _ () s3 = (.ok (), s3) := rfl
    rw [hrun] at h
    injection h with h1 h2
    rw [← h2]
    exact ⟨rfl, rfl, rfl, rfl, rfl, [], by simp, by intro k hk; simp at hk⟩
  | some epi =>
    dsimp only at h
    obtain ⟨p0, s3a, hg, h⟩ := EM.bind_ok h
    have hs3a : s3a = s3 := by
      have hro := @get_point_readOnly Mt epi s3
      rw [hg] at hro
      exact hro
    rw [hs3a] at h
    obtain ⟨ep1, s3b, hr, h⟩ := EM.bind_ok h
    have hs3b : s3b = s3 := by
      have hro := @routeLoop_readOnly Mt dist fuel q
        ((List.range (((nl : Int) - 1) - (l : Int)).toNat).map
          (fun j => (nl - 1) - j))
        [(dist q p0, epi)] s3
      rw [hr] at hro
      exact hro
    rw [hs3b] at h
    exact insertLayersLoop_ok_effect _ _ _ _ _ h

/-- The trailing phase of `insert`: the conditional entry-point write,
then the promotions. -/
theorem insert_tail_effect {idx l : Nat} {s4 s' : Store Mt} {u : Unit}
    (h : ((get_num_layers >>= fun LL =>
        (if LL < l + 1 then set_ep idx else EM.pure ()) >>= fun _ =>
          promoteLoop idx (l + 1 - LL)) : EM Mt Unit) s4 = (.ok u, s')) :
    s'.pts = s4.pts ∧ s'.metas = s4.metas ∧ s'.pointsCell = s4.pointsCell ∧
    s'.log = s4.log ++
      (if s4.layersCell.getD 0 < l + 1 then [Key.ep] else []) ++
      promTrace (s4.layersCell.getD 0) idx (l + 1 - s4.layersCell.getD 0) := by
  obtain ⟨LL, s5, hLL, h⟩ := EM.bind_ok h
  have hrunL : @get_num_layers Mt s4 = (.ok (s4.layersCell.getD 0), s4) :=
    rfl
  rw [hrunL] at hLL
  injection hLL with hLL1 hLL2
  injection hLL1 with hLL1
  rw [← hLL2] at h
  rw [← hLL1] at h
  obtain ⟨u3, s6, hC, h⟩ := EM.bind_ok h
  by_cases hgrow : s4.layersCell.getD 0 < l + 1
  · rw [if_pos hgrow] at hC
    have hrunE : @set_ep Mt idx s4 =
        (.ok (), { s4 with
          epCell := some idx
          log := s4.log ++ [Key.ep] }) := rfl
    rw [hrunE] at hC
    injection hC with hC1 hC2
    rw [← hC2] at h
    obtain ⟨e1, e2, e3, e4, e5⟩ := promoteLoop_ok_effect _ _ _ _ h
    refine ⟨by rw [e1], by rw [e2], by rw [e3], ?_⟩
    rw [e5]
    simp [hgrow]
  · rw [if_neg hgrow] at hC
    have hrunP : @EM.pure Mt _ () s4 = (.ok (), s4) := rfl
    rw [hrunP] at hC
    injection hC with hC1 hC2
    rw [← hC2] at h
    obtain ⟨e1, e2, e3, e4, e5⟩ := promoteLoop_ok_effect _ _ _ _ h
    refine ⟨e1, e2, e3, ?_⟩
    rw [e5]
    simp [hgrow]

/-- The full effect of a successful `insert` on every store component
other than the layer nodes, and the shape of its write trace: the point
write and counter bump, the optional metadata write, layer-node upserts,
then the conditional entry-point write, then the layer promotions. -/
theorem insert_ok_effect {dist : Point → Point → ℚ} {cfg : HNSW}
    {truthy : Mt → Bool} {fuel : Nat} {q : Point} {md : Option Mt} {l : Nat}
    {s s' : Store Mt} {u : Unit}
    (h : insert dist cfg truthy fuel q md l s = (.ok u, s')) :
    s'.pts = aSet s.pts (s.pointsCell.getD 0) q ∧
    s'.pointsCell = some (s.pointsCell.getD 0 + 1) ∧
    s'.metas = metaVal truthy md (s.pointsCell.getD 0) s.metas ∧
    ∃ nbrT, NbrKeysOnly nbrT ∧
      s'.log = s.log ++ [Key.point (s.pointsCell.getD 0), Key.points] ++
        metaTrace truthy md (s.pointsCell.getD 0) ++ nbrT ++
        (if s.layersCell.getD 0 < l + 1 then [Key.ep] else []) ++
        promTrace (s.layersCell.getD 0) (s.pointsCell.getD 0)
          (l + 1 - s.layersCell.getD 0) := by
  unfold insert at h
  obtain ⟨ep_index, s1, hEp, h⟩ := EM.bind_ok h
  have hrunEp : @get_ep Mt s = (.ok s.epCell, s) := rfl
  rw [hrunEp] at hEp
  injection hEp with hEp1 hEp2
  injection hEp1 with hEp1
  subst hEp1
  rw [← hEp2] at h
  obtain ⟨nl, s2, hNl, h⟩ := EM.bind_ok h
  have hrunNl : @get_num_layers Mt s = (.ok (s.layersCell.getD 0), s) :=
    rfl
  rw [hrunNl] at hNl
  injection hNl with hNl1 hNl2
  injection hNl1 with hNl1
  subst hNl1
  rw [← hNl2] at h
  obtain ⟨idx, sN, hNp, h⟩ := EM.bind_ok h
  rw [new_point_run] at hNp
  injection hNp with hNp1 hNp2
  injection hNp1 with hNp1
  rw [← hNp2] at h
  rw [← hNp1] at h
  obtain ⟨uA, s3, hA, h⟩ := EM.bind_ok h
  have hA3 := insert_meta_effect hA
  rw [hA3] at h
  obtain ⟨uB, s4, hB, h⟩ := EM.bind_ok h
  have hBfacts :=
    @insert_branch_effect Mt _ _ _ _ _ _ (s.layersCell.getD 0) _ _ _ _ hB
  obtain ⟨b1, b2, b3, b4, b5, nbrT, hblog, hbn⟩ := hBfacts
  have hTfacts := insert_tail_effect h
  obtain ⟨t1, t2, t3, t4⟩ := hTfacts
  have hlay4 : s4.layersCell = s.layersCell := by rw [b5]
  refine ⟨?_, ?_, ?_, nbrT, hbn, ?_⟩
  · rw [t1, b1]
  · rw [t3, b3]
  · rw [t2, b2]
  · rw [t4, hblog, hlay4]

/-! ### Claim C1: the reported insert id -/

/-- C1: for every vector and optional metadata, a successful
`insertVector` returns exactly the value of `num_points` read immediately
before the insert, and that value is the id under which the new vector
is stored. -/
theorem C1_insert_returns_assigned_id {dist : Point → Point → ℚ}
    {cfg : HNSW} {truthy : Mt → Bool} {fuel : Nat} {q : Point}
    {md : Option Mt} {l : Nat} {s s' : Store Mt} {vid : Nat}
    (h : insertVector dist cfg truthy fuel q md l s = (.ok vid, s')) :
    vid = s.pointsCell.getD 0 ∧ aGet s'.pts vid = some q := by
  unfold insertVector at h
  obtain ⟨vid0, s1, hds, h⟩ := EM.bind_ok h
  have hrun : @get_datasize Mt s = (.ok (s.pointsCell.getD 0), s) :=
    rfl
  rw [hrun] at hds
  injection hds with h1 h2
  injection h1 with h1
  subst h1
  rw [← h2] at h
  obtain ⟨u, s2, hins, h⟩ := EM.bind_ok h
  have hpure : @EM.pure Mt _ (s.pointsCell.getD 0) s2 =
      (.ok (s.pointsCell.getD 0), s2) := rfl
  rw [hpure] at h
  injection h with h1 h2
  injection h1 with h1
  obtain ⟨e1, e2, e3, e4⟩ := insert_ok_effect hins
  refine ⟨h1.symm, ?_⟩
  rw [h1.symm, ← h2, e1]
  exact aGet_aSet_self _ _ _

/-- Closed instance of C1 at a concrete input. -/
theorem C1_insert_returns_assigned_id_witness :
    0 = ((emptyStore Nat).pointsCell.getD 0) ∧
    aGet ((insertVector sqDist (HNSW.make 16 128 20) natTruthy 10 [1, 0]
      none 0 (emptyStore Nat)).2).pts 0 = some [1, 0] :=
  C1_insert_returns_assigned_id
    (show insertVector sqDist (HNSW.make 16 128 20) natTruthy 10 [1, 0]
      none 0 (emptyStore Nat) =
      (Except.ok 0,
        (insertVector sqDist (HNSW.make 16 128 20) natTruthy 10 [1, 0]
          none 0 (emptyStore Nat)).2) from rfl)

/-! ### Claim C8: metadata fidelity -/

/-- What a `get` observes for the metadata supplied to `insert`: the
value when it was supplied and truthy, absent otherwise (the source
guards the write with JS truthiness: `if (metadata)`). -/
def suppliedMeta (truthy : Mt → Bool) (md : Option Mt) : Option Mt :=
  match md with
  | some m => if truthy m then some m else none
  | none => none

/-- C8 counterexample: inserting with supplied metadata `0` (a falsy JS
number) into a fresh index succeeds, but a subsequent metadata read of
the new id yields `null`, not `0` — the claim that a supplied metadata
value is always returned is false. -/
theorem C8_counterexample :
    (insert sqDist (HNSW.make 16 128 20) natTruthy 10 [1] (some 0) 0
      (emptyStore Nat)).1 = Except.ok () ∧
    (get_metadata 0 ((insert sqDist (HNSW.make 16 128 20) natTruthy 10 [1]
      (some 0) 0 (emptyStore Nat)).2)).1 = Except.ok none :=
  ⟨rfl, rfl⟩

/-- C8 (amended): for an id returned by a successful insert whose
metadata slot was previously unset, the stored metadata equals the
supplied value when it was supplied and truthy, and is absent when no
metadata was supplied or the supplied value was falsy (`if (metadata)`
skips falsy values). -/
theorem C8_metadata_fidelity_amended {dist : Point → Point → ℚ}
    {cfg : HNSW} {truthy : Mt → Bool} {fuel : Nat} {q : Point}
    {md : Option Mt} {l : Nat} {s s' : Store Mt} {u : Unit}
    (h : insert dist cfg truthy fuel q md l s = (.ok u, s'))
    (hfresh : aGet s.metas (s.pointsCell.getD 0) = none) :
    aGet s'.metas (s.pointsCell.getD 0) = suppliedMeta truthy md := by
  obtain ⟨e1, e2, e3, e4⟩ := insert_ok_effect h
  rw [e3]
  cases md with
  | none => exact hfresh
  | some m =>
    by_cases htm : truthy m = true
    · show aGet (if truthy m = true then aSet s.metas (s.pointsCell.getD 0) m
        else s.metas) (s.pointsCell.getD 0) = suppliedMeta truthy (some m)
      rw [if_pos htm]
      show aGet (aSet s.metas (s.pointsCell.getD 0) m) (s.pointsCell.getD 0) =
        (if truthy m = true then some m else none)
      rw [if_pos htm]
      exact aGet_aSet_self _ _ _
    · show aGet (if truthy m = true then aSet s.metas (s.pointsCell.getD 0) m
        else s.metas) (s.pointsCell.getD 0) = suppliedMeta truthy (some m)
      rw [if_neg htm]
      show aGet s.metas (s.pointsCell.getD 0) =
        (if truthy m = true then some m else none)
      rw [if_neg htm]
      exact hfresh

/-- Closed instance of C8 (amended) at a concrete input with truthy
metadata. -/
theorem C8_metadata_fidelity_amended_witness :
    aGet ((insert sqDist (HNSW.make 16 128 20) natTruthy 10 [1] (some 5) 0
      (emptyStore Nat)).2).metas 0 = suppliedMeta natTruthy (some 5) :=
  C8_metadata_fidelity_amended
    (show insert sqDist (HNSW.make 16 128 20) natTruthy 10 [1] (some 5) 0
      (emptyStore Nat) =
      (Except.ok (),
        (insert sqDist (HNSW.make 16 128 20) natTruthy 10 [1] (some 5) 0
          (emptyStore Nat)).2) from rfl)
    (show aGet (emptyStore Nat).metas
      ((emptyStore Nat).pointsCell.getD 0) = none from rfl)

/-! ### Claim C4: the write order inside one insert -/

/-- C4 counterexample: the very first insert into a fresh index grows
the layer count (layers becomes 1), and its write trace is
`[point 0, points, ep, nbr(0,0), layers]`: the entry-point write (trace
position 2) PRECEDES the layer-promotion writes (positions 3 and 4),
contradicting the claimed order `promote_to_new_layer → set_entry_point`
(the source runs `set_ep` before the `new_neighbor` loop). -/
theorem C4_counterexample :
    ((insert sqDist (HNSW.make 16 128 20) natTruthy 10 [1, 0] none 0
      (emptyStore Nat)).2).log =
      [Key.point 0, Key.points, Key.ep, Key.nbr 0 0, Key.layers] ∧
    ((insert sqDist (HNSW.make 16 128 20) natTruthy 10 [1, 0] none 0
      (emptyStore Nat)).2).layersCell = some 1 ∧
    ((insert sqDist (HNSW.make 16 128 20) natTruthy 10 [1, 0] none 0
      (emptyStore Nat)).2).log.get? 2 = some Key.ep ∧
    ((insert sqDist (HNSW.make 16 128 20) natTruthy 10 [1, 0] none 0
      (emptyStore Nat)).2).log.get? 4 = some Key.layers :=
  ⟨rfl, rfl, rfl, rfl⟩

/-- C4 (amended): within every successful insert the KV writes occur in
the order `new_point` (point record, then points counter) →
`set_metadata` (when supplied and truthy) → per-layer neighbor upserts
(layer-node keys only) → `set_entry_point` (exactly when the insert
grows the layer count) → `promote_to_new_layer` (`new_neighbor`, each
writing a layer node and then the layers counter); in particular, for an
insert that grows the layer count, the entry-point write PRECEDES the
layer-promotion writes of that same insert. -/
theorem C4_write_order_amended {dist : Point → Point → ℚ} {cfg : HNSW}
    {truthy : Mt → Bool} {fuel : Nat} {q : Point} {md : Option Mt}
    {l : Nat} {s s' : Store Mt} {u : Unit}
    (h : insert dist cfg truthy fuel q md l s = (.ok u, s')) :
    ∃ nbrT, NbrKeysOnly nbrT ∧
      s'.log = s.log ++ [Key.point (s.pointsCell.getD 0), Key.points] ++
        metaTrace truthy md (s.pointsCell.getD 0) ++ nbrT ++
        (if s.layersCell.getD 0 < l + 1 then [Key.ep] else []) ++
        promTrace (s.layersCell.getD 0) (s.pointsCell.getD 0)
          (l + 1 - s.layersCell.getD 0) := by
  obtain ⟨e1, e2, e3, e4⟩ := insert_ok_effect h
  exact e4

/-- Closed instance of C4 (amended) at a concrete input. -/
theorem C4_write_order_amended_witness :
    ∃ nbrT, NbrKeysOnly nbrT ∧
      ((insert sqDist (HNSW.make 16 128 20) natTruthy 10 [1, 0] none 0
        (emptyStore Nat)).2).log =
        (emptyStore Nat).log ++ [Key.point 0, Key.points] ++
          metaTrace natTruthy none 0 ++ nbrT ++
          (if (0 : Nat) < 0 + 1 then [Key.ep] else []) ++
          promTrace 0 0 (0 + 1 - 0) :=
  C4_write_order_amended
    (show insert sqDist (HNSW.make 16 128 20) natTruthy 10 [1, 0] none 0
      (emptyStore Nat) =
      (Except.ok (),
        (insert sqDist (HNSW.make 16 128 20) natTruthy 10 [1, 0] none 0
          (emptyStore Nat)).2) from rfl)

/-! ### Claim C2: dimension mismatch on insert -/

/-- The store after inserting the single 2-D vector `[1, 0]` into a
fresh index: a populated index whose dimension is 2. -/
def exStore2 : Store Nat :=
  (insert wDist (HNSW.make 16 128 20) natTruthy 10 [1, 0] none 0
    (emptyStore Nat)).2

theorem exStore2_eq :
    exStore2 =
      { layersCell := some 1, epCell := some 0, pointsCell := some 1
        pts := [(0, [1, 0])], metas := [], nbrs := [((0, 0), [])]
        log := [Key.point 0, Key.points, Key.ep, Key.nbr 0 0,
          Key.layers] } := rfl

/-- C2 counterexample: inserting the 3-D vector `[1, 1, 1]` into the
2-D index succeeds — it is NOT rejected, the point is written under id 1
and the points counter is bumped, so the store state changes.  The claim
that such an insert fails with `DimensionMismatch` before any write is
false (no dimension check exists anywhere on the insert path). -/
theorem C2_counterexample :
    (insert wDist (HNSW.make 16 128 20) natTruthy 10 [1, 1, 1] none 0
      exStore2).1 = Except.ok () ∧
    ((insert wDist (HNSW.make 16 128 20) natTruthy 10 [1, 1, 1] none 0
      exStore2).2).pointsCell = some 2 ∧
    aGet ((insert wDist (HNSW.make 16 128 20) natTruthy 10 [1, 1, 1]
      none 0 exStore2).2).pts 1 = some [1, 1, 1] ∧
    ((insert wDist (HNSW.make 16 128 20) natTruthy 10 [1, 1, 1] none 0
      exStore2).2).log ≠ exStore2.log :=
  ⟨rfl, rfl, rfl, by decide⟩

/-- C2 (amended): `insert` performs no dimension validation whatsoever:
on the populated 2-D index, every completed insert of a vector `v` of
ANY length — under ANY distance function and ANY fuel, i.e. regardless
of any property of `v` — writes `v` to the store under the next id `1`,
bumps the points counter, and changes the store, exactly as a
matching-length vector would; there is no rejection path (witnessed
concretely by `C2_counterexample`). -/
theorem C2_no_dimension_check_amended (dist : Point → Point → ℚ)
    (v : Point) (fuel : Nat) {s' : Store Nat} {u : Unit}
    (h : insert dist (HNSW.make 16 128 20) natTruthy fuel v none 0
      exStore2 = (.ok u, s')) :
    s'.pointsCell = some 2 ∧ aGet s'.pts 1 = some v ∧
      s'.log ≠ exStore2.log := by
  obtain ⟨e1, e2, e3, e4⟩ := insert_ok_effect h
  obtain ⟨nbrT, _, hlog⟩ := e4
  refine ⟨?_, ?_, ?_⟩
  · rw [e2]
    rfl
  · rw [e1]
    exact aGet_aSet_self _ _ _
  · rw [hlog]
    intro hcon
    have hlen := congrArg List.length hcon
    simp [List.length_append] at hlen

/-- Closed instance of C2 (amended) at a 3-D vector on the 2-D index. -/
theorem C2_no_dimension_check_amended_witness :
    ((insert wDist (HNSW.make 16 128 20) natTruthy 2 [1, 1, 1] none 0
      exStore2).2).pointsCell = some 2 ∧
    aGet ((insert wDist (HNSW.make 16 128 20) natTruthy 2 [1, 1, 1]
      none 0 exStore2).2).pts 1 = some [1, 1, 1] ∧
    ((insert wDist (HNSW.make 16 128 20) natTruthy 2 [1, 1, 1] none 0
      exStore2).2).log ≠ exStore2.log :=
  C2_no_dimension_check_amended wDist [1, 1, 1] 2
    (show insert wDist (HNSW.make 16 128 20) natTruthy 2 [1, 1, 1] none 0
      exStore2 =
      (Except.ok (),
        (insert wDist (HNSW.make 16 128 20) natTruthy 2 [1, 1, 1] none 0
          exStore2).2) from rfl)

/-! ### Further record lemmas, for the structural store invariants -/

theorem aGet_mem {κ α : Type} [DecidableEq κ] :
    ∀ {l : List (κ × α)} {k : κ} {v : α}, aGet l k = some v → (k, v) ∈ l := by
  intro l
  induction l with
  | nil => intro k v h; simp [aGet] at h
  | cons p t ih =>
    intro k v h
    rw [aGet] at h
    by_cases hp : p.1 = k
    · rw [if_pos hp] at h
      injection h with h
      have : (k, v) = p := by
        rw [← hp, ← h]
      rw [this]
      exact List.mem_cons_self _ _
    · rw [if_neg hp] at h
      exact List.mem_cons_of_mem p (ih h)

theorem mem_aSet {κ α : Type} [DecidableEq κ] :
    ∀ {l : List (κ × α)} {k : κ} {v : α} {p : κ × α},
      p ∈ aSet l k v → p ∈ l ∨ p = (k, v) := by
  intro l
  induction l with
  | nil =>
    intro k v p h
    simp only [aSet] at h
    exact Or.inr (List.mem_singleton.mp h)
  | cons q t ih =>
    intro k v p h
    rw [aSet] at h
    by_cases hq : q.1 = k
    · rw [if_pos hq] at h
      rcases List.mem_cons.mp h with rfl | hp
      · exact Or.inr rfl
      · exact Or.inl (List.mem_cons_of_mem q hp)
    · rw [if_neg hq] at h
      rcases List.mem_cons.mp h with rfl | hp
      · exact Or.inl (List.mem_cons_self _ _)
      · rcases ih hp with hl | hr
        · exact Or.inl (List.mem_cons_of_mem q hl)
        · exact Or.inr hr

/-- Re-setting the same key overwrites the previous set. -/
theorem aSet_aSet {κ α : Type} [DecidableEq κ] :
    ∀ (l : List (κ × α)) (k : κ) (v v' : α),
      aSet (aSet l k v) k v' = aSet l k v' := by
  intro l
  induction l with
  | nil => intro k v v'; simp [aSet]
  | cons p t ih =>
    intro k v v'
    by_cases hp : p.1 = k
    · rw [aSet, if_pos hp, aSet, if_pos rfl, aSet, if_pos hp]
    · rw [aSet, if_neg hp, aSet, if_neg hp, aSet, if_neg hp, ih]

theorem aSet_length_le {κ α : Type} [DecidableEq κ] :
    ∀ (l : List (κ × α)) (k : κ) (v : α),
      (aSet l k v).length ≤ l.length + 1 := by
  intro l
  induction l with
  | nil => intro k v; simp [aSet]
  | cons p t ih =>
    intro k v
    rw [aSet]
    by_cases hp : p.1 = k
    · rw [if_pos hp]
      simp
    · rw [if_neg hp]
      simpa using ih k v

/-- An association list with no duplicated keys. -/
def KeysNodup {κ α : Type} (l : List (κ × α)) : Prop :=
  (l.map Prod.fst).Nodup

theorem keysNodup_nil {κ α : Type} : KeysNodup ([] : List (κ × α)) := by
  simp [KeysNodup]

theorem aSet_keysNodup {κ α : Type} [DecidableEq κ] :
    ∀ {l : List (κ × α)} (k : κ) (v : α),
      KeysNodup l → KeysNodup (aSet l k v) := by
  intro l
  induction l with
  | nil => intro k v _; simp [aSet, KeysNodup]
  | cons p t ih =>
    intro k v h
    rw [KeysNodup, List.map_cons, List.nodup_cons] at h
    rw [aSet]
    by_cases hp : p.1 = k
    · rw [if_pos hp, KeysNodup, List.map_cons, List.nodup_cons]
      exact ⟨by rw [← hp]; exact h.1, h.2⟩
    · rw [if_neg hp, KeysNodup, List.map_cons, List.nodup_cons]
      constructor
      · intro hmem
        obtain ⟨x, hx, hx1⟩ := List.mem_map.mp hmem
        rcases mem_aSet hx with hxl | hxkv
        · exact h.1 (List.mem_map.mpr ⟨x, hxl, hx1⟩)
        · rw [hxkv] at hx1
          exact hp hx1.symm
      · exact ih k v h.2

/-- With unique keys, list membership determines the lookup. -/
theorem aGet_eq_of_mem {κ α : Type} [DecidableEq κ] :
    ∀ {l : List (κ × α)}, KeysNodup l → ∀ {p : κ × α}, p ∈ l →
      aGet l p.1 = some p.2 := by
  intro l
  induction l with
  | nil => intro _ p h; simp at h
  | cons q t ih =>
    intro h p hp
    rw [KeysNodup, List.map_cons, List.nodup_cons] at h
    rcases List.mem_cons.mp hp with rfl | hpt
    · rw [aGet, if_pos rfl]
    · rw [aGet]
      by_cases hq : q.1 = p.1
      · exact absurd (List.mem_map.mpr ⟨p, hpt, hq.symm⟩) h.1
      · rw [if_neg hq]
        exact ih h.2 hpt

/-- Membership in a fold of record updates: every entry is either initial
or one of the written pairs. -/
theorem foldl_aSet_mem {κ α β : Type} [DecidableEq κ]
    (f : β → κ) (g : β → α) :
    ∀ (l : List β) (init : List (κ × α)) (p : κ × α),
      p ∈ l.foldl (fun d e => aSet d (f e) (g e)) init →
      p ∈ init ∨ ∃ e ∈ l, p = (f e, g e) := by
  intro l
  induction l with
  | nil => intro init p h; exact Or.inl h
  | cons e t ih =>
    intro init p h
    rw [List.foldl_cons] at h
    rcases ih (aSet init (f e) (g e)) p h with h1 | ⟨e', he', hpe⟩
    · rcases mem_aSet h1 with h2 | h2
      · exact Or.inl h2
      · exact Or.inr ⟨e, List.mem_cons_self _ _, h2⟩
    · exact Or.inr ⟨e', List.mem_cons_of_mem e he', hpe⟩

theorem foldl_aSet_length {κ α β : Type} [DecidableEq κ]
    (f : β → κ) (g : β → α) :
    ∀ (l : List β) (init : List (κ × α)),
      (l.foldl (fun d e => aSet d (f e) (g e)) init).length ≤
        init.length + l.length := by
  intro l
  induction l with
  | nil => intro init; simp
  | cons e t ih =>
    intro init
    rw [List.foldl_cons]
    calc (t.foldl (fun d e => aSet d (f e) (g e))
          (aSet init (f e) (g e))).length
        ≤ (aSet init (f e) (g e)).length + t.length := ih _
      _ ≤ (init.length + 1) + t.length := by
          have := aSet_length_le init (f e) (g e)
          omega
      _ = init.length + (e :: t).length := by simp; omega

theorem foldl_aSet_keysNodup {κ α β : Type} [DecidableEq κ]
    (f : β → κ) (g : β → α) :
    ∀ (l : List β) (init : List (κ × α)),
      KeysNodup init →
      KeysNodup (l.foldl (fun d e => aSet d (f e) (g e)) init) := by
  intro l
  induction l with
  | nil => intro init h; exact h
  | cons e t ih =>
    intro init h
    rw [List.foldl_cons]
    exact ih _ (aSet_keysNodup _ _ h)

theorem popMin_snd_subset : ∀ {l : List Nd} {x : Nd},
    x ∈ (popMin l).2 → x ∈ l := by
  intro l x h
  rcases hl : popMin l with ⟨r, rest⟩
  rw [hl] at h
  cases r with
  | none =>
    cases l with
    | nil => injection hl with h1 h2; rw [← h2] at h; simp at h
    | cons a t =>
      obtain ⟨y, r2, hy⟩ := popMin_some_of_ne_nil (l := a :: t) (by simp)
      rw [hy] at hl
      injection hl with h1 h2
      simp at h1
  | some y =>
    exact (popMin_perm hl).mem_iff.mpr (List.mem_cons_of_mem y h)

theorem getPointsAux_length (pts : List (Nat × Point)) :
    ∀ (idxs : List Nat) (vs : List Point),
      getPointsAux pts idxs = .ok vs → vs.length = idxs.length := by
  intro idxs
  induction idxs with
  | nil =>
    intro vs h
    rw [getPointsAux] at h
    injection h with h
    rw [← h]
    rfl
  | cons i t ih =>
    intro vs h
    rw [getPointsAux] at h
    rcases hg : aGet pts i with _ | v <;> rw [hg] at h
    · injection h
    · rcases hr : getPointsAux pts t with e | rest <;> rw [hr] at h <;>
        dsimp only at h
      · injection h
      · injection h with h
        rw [← h]
        simp [ih rest hr]

theorem getNbrsAux_ok (nbrs : List ((Nat × Nat) × LNode)) (layer : Nat) :
    ∀ (idxs : List Nat) (entries : List (Nat × LNode)),
      getNbrsAux nbrs layer idxs = .ok entries →
      ∀ p ∈ entries, p.1 ∈ idxs ∧ aGet nbrs (layer, p.1) = some p.2 := by
  intro idxs
  induction idxs with
  | nil =>
    intro entries h p hp
    rw [getNbrsAux] at h
    injection h with h
    rw [← h] at hp
    simp at hp
  | cons i t ih =>
    intro entries h p hp
    rw [getNbrsAux] at h
    rcases hg : aGet nbrs (layer, i) with _ | nd <;> rw [hg] at h
    · injection h
    · rcases hr : getNbrsAux nbrs layer t with e | rest <;> rw [hr] at h <;>
        dsimp only at h
      · injection h
      · injection h with h
        rw [← h] at hp
        rcases List.mem_cons.mp hp with rfl | hpr
        · exact ⟨List.mem_cons_self _ _, hg⟩
        · obtain ⟨h1, h2⟩ := ih rest hr p hpr
          exact ⟨List.mem_cons_of_mem i h1, h2⟩

/-! ### Structural invariants preserved by `insert` -/

theorem select_neighbors_length (cfg : HNSW) (q : Point) (C : List Nd)
    (l_c : Nat) :
    (select_neighbors cfg q C l_c true).length =
      min (if l_c > 0 then cfg.m else cfg.m_max0) C.length := by
  rw [select_neighbors_eq_takeMins, takeMins_length]

theorem select_neighbors_mem (cfg : HNSW) (q : Point) (C : List Nd)
    (l_c : Nat) :
    ∀ e ∈ select_neighbors cfg q C l_c true, e ∈ C := by
  rw [select_neighbors_eq_takeMins]
  exact fun e he => (takeMins_subperm _ _).subset he

/-- The two spellings of the per-layer degree cap in `hnsw.ts` agree. -/
theorem ifM_eq (cfg : HNSW) (l_c : Nat) :
    (if l_c = 0 then cfg.m_max0 else cfg.m) =
      (if l_c > 0 then cfg.m else cfg.m_max0) := by
  rcases Nat.eq_zero_or_pos l_c with h | h
  · simp [h]
  · simp [Nat.pos_iff_ne_zero.mp h, h]

theorem Mmax_eq_ite (cfg : HNSW) (l_c : Nat) :
    Mmax cfg l_c = (if l_c > 0 then cfg.m else cfg.m_max0) := by
  rw [Mmax, ifM_eq]

/-- Every entry of the bidirectional-connection fold of `insertLayerStep`
descends from an initial entry with the same key, at most with the new
id `idx` set. -/
theorem connect_fold_mem (idx : Nat) :
    ∀ (es : List Nd) (init : Graph) (p : Nat × LNode),
      p ∈ es.foldl
        (fun g e =>
          match aGet g e.2 with
          | some nd => aSet g e.2 (aSet nd idx e.1)
          | none => g) init →
      ∃ nd0, (p.1, nd0) ∈ init ∧
        (p.2 = nd0 ∨ ∃ d, p.2 = aSet nd0 idx d) := by
  intro es
  induction es with
  | nil => intro init p h; exact ⟨p.2, h, Or.inl rfl⟩
  | cons e t ih =>
    intro init p h
    rw [List.foldl_cons] at h
    rcases hg : aGet init e.2 with _ | m <;> rw [hg] at h <;> dsimp only at h
    · exact ih init p h
    · obtain ⟨nd0, hmem, hdisj⟩ := ih _ p h
      rcases mem_aSet hmem with hin | heq
      · exact ⟨nd0, hin, hdisj⟩
      · have h1 : p.1 = e.2 := congrArg Prod.fst heq
        have h2 : nd0 = aSet m idx e.1 := congrArg Prod.snd heq
        refine ⟨m, by rw [h1]; exact aGet_mem hg, Or.inr ?_⟩
        rcases hdisj with hd | ⟨d, hd⟩
        · exact ⟨e.1, by rw [hd, h2]⟩
        · exact ⟨d, by rw [hd, h2, aSet_aSet]⟩

/-- `pruneLoop` leaves only well-formed layer nodes in the graph: at most
`M` entries, unique keys, ids below `n` — provided the input entries are
key-unique with ids below `n`, and every oversized input entry is
scheduled in `es`. -/
theorem pruneLoop_ok_good {dist : Point → Point → ℚ} {cfg : HNSW}
    {l_c M n : Nat}
    (hM : (if l_c > 0 then cfg.m else cfg.m_max0) = M) :
    ∀ (es : List Nd) (nodes : Graph) (s : Store Mt) (nodes' : Graph)
      (s' : Store Mt),
      pruneLoop dist cfg l_c M es nodes s = (.ok nodes', s') →
      KeysNodup nodes →
      (∀ p ∈ nodes, KeysNodup p.2 ∧ ∀ r ∈ p.2, r.1 < n) →
      (∀ p ∈ nodes, p.1 ∈ es.map (fun x => x.2) ∨ p.2.length ≤ M) →
      KeysNodup nodes' ∧
        ∀ p ∈ nodes', p.2.length ≤ M ∧ KeysNodup p.2 ∧ ∀ r ∈ p.2, r.1 < n := by
  intro es
  induction es with
  | nil =>
    intro nodes s nodes' s' h hkn hgood hlen
    have hrun : @pruneLoop Mt dist cfg l_c M [] nodes s = (.ok nodes, s) := rfl
    rw [hrun] at h
    injection h with h1 h2
    injection h1 with h1
    subst h1
    refine ⟨hkn, fun p hp => ?_⟩
    exact ⟨(hlen p hp).resolve_left (by simp), (hgood p hp).1, (hgood p hp).2⟩
  | cons e t ih =>
    intro nodes s nodes' s' h hkn hgood hlen
    by_cases hc :
        (((aGet nodes e.2).getD []).map (fun p => (p.2, p.1))).length > M
    · have hstep : pruneLoop dist cfg l_c M (e :: t) nodes s =
          ((get_point e.2 : EM Mt Point) >>= fun pe =>
            pruneLoop dist cfg l_c M t
              (aSet nodes e.2
                ((select_neighbors cfg pe
                    (((aGet nodes e.2).getD []).map (fun p => (p.2, p.1)))
                    l_c).foldl
                  (fun d en => aSet d en.2 en.1) []))) s := by
        show (if (((aGet nodes e.2).getD []).map
            (fun p : Nat × ℚ => (p.2, p.1))).length > M
          then (_ : EM Mt Graph) else (_ : EM Mt Graph)) s = _
        rw [if_pos hc]
      rw [hstep] at h
      obtain ⟨pe, s1, hpe, h⟩ := EM.bind_ok h
      have hs1 : s1 = s := by
        have hro := @get_point_readOnly Mt e.2 s
        rw [hpe] at hro
        exact hro
      rw [hs1] at h
      set eConn : List Nd :=
        ((aGet nodes e.2).getD []).map (fun p => (p.2, p.1)) with hEC
      set dict : LNode :=
        (select_neighbors cfg pe eConn l_c).foldl
          (fun d en => aSet d en.2 en.1) [] with hD
      have hdictLen : dict.length ≤ M := by
        calc dict.length ≤ 0 + (select_neighbors cfg pe eConn l_c).length :=
              foldl_aSet_length (fun en : Nd => en.2) (fun en : Nd => en.1) _ _
          _ ≤ M := by
              rw [select_neighbors_length, Nat.zero_add, hM]
              exact Nat.min_le_left _ _
      have hdictKN : KeysNodup dict :=
        foldl_aSet_keysNodup (fun en : Nd => en.2) (fun en : Nd => en.1) _ _
          keysNodup_nil
      have hdictIds : ∀ r ∈ dict, r.1 < n := by
        intro r hr
        rcases foldl_aSet_mem (fun en : Nd => en.2) (fun en : Nd => en.1)
            _ _ _ hr with h0 | ⟨en, hen, hre⟩
        · simp at h0
        · have henC : en ∈ eConn := select_neighbors_mem cfg pe eConn l_c en hen
          rw [hEC] at henC
          obtain ⟨p0, hp0, hp0e⟩ := List.mem_map.mp henC
          rcases hg : aGet nodes e.2 with _ | nd
          · rw [hg] at hp0
            simp at hp0
          · rw [hg] at hp0
            have hnd := (hgood _ (aGet_mem hg)).2
            have : r.1 = p0.1 := by rw [hre, ← hp0e]
            rw [this]
            exact hnd p0 hp0
      have hkn2 : KeysNodup (aSet nodes e.2 dict) := aSet_keysNodup _ _ hkn
      refine ih (aSet nodes e.2 dict) s nodes' s' h hkn2 ?_ ?_
      · intro p hp
        rcases mem_aSet hp with hpin | hpe2
        · exact hgood p hpin
        · rw [hpe2]
          exact ⟨hdictKN, hdictIds⟩
      · intro p hp
        by_cases hpk : p.1 = e.2
        · have hpg : aGet (aSet nodes e.2 dict) p.1 = some p.2 :=
            aGet_eq_of_mem hkn2 hp
          rw [hpk, aGet_aSet_self] at hpg
          injection hpg with hpg
          right
          rw [← hpg]
          exact hdictLen
        · rcases mem_aSet hp with hpin | hpe2
          · rcases hlen p hpin with hl | hr
            · left
              simp only [List.map_cons] at hl
              rcases List.mem_cons.mp hl with h0 | h0
              · exact absurd h0 hpk
              · exact h0
            · exact Or.inr hr
          · exact absurd (congrArg Prod.fst hpe2) hpk
    · have hstep : pruneLoop dist cfg l_c M (e :: t) nodes s =
          pruneLoop dist cfg l_c M t nodes s := by
        show (if (((aGet nodes e.2).getD []).map
            (fun p : Nat × ℚ => (p.2, p.1))).length > M
          then (_ : EM Mt Graph) else (_ : EM Mt Graph)) s = _
        rw [if_neg hc]
      rw [hstep] at h
      refine ih nodes s nodes' s' h hkn hgood ?_
      intro p hp
      by_cases hpk : p.1 = e.2
      · right
        have hpg : aGet nodes p.1 = some p.2 := aGet_eq_of_mem hkn hp
        rw [hpk] at hpg
        have : (((aGet nodes e.2).getD []).map
            (fun p => (p.2, p.1))).length = p.2.length := by
          rw [hpg]
          simp
        omega
      · rcases hlen p hp with hl | hr
        · left
          simp only [List.map_cons] at hl
          rcases List.mem_cons.mp hl with h0 | h0
          · exact absurd h0 hpk
          · exact h0
        · exact Or.inr hr

/-- Ids appearing in the heaps after one `dists.forEach` batch all come
from the input heaps or from the batch. -/
theorem processBatch_ids (P : Nat → Prop) (ef : Nat) (f_dist : ℚ) :
    ∀ (batch : List (ℚ × Nat)) (V : List Nat) (C W : List Nd),
      (∀ b ∈ batch, P b.2) → (∀ c ∈ C, P c.2) → (∀ w ∈ W, P w.2) →
      (∀ c ∈ (processBatch ef f_dist batch V C W).2.1, P c.2) ∧
      (∀ w ∈ (processBatch ef f_dist batch V C W).2.2, P w.2) := by
  intro batch
  induction batch with
  | nil => intro V C W _ hC hW; exact ⟨hC, hW⟩
  | cons b t ih =>
    intro V C W hB hC hW
    obtain ⟨d, e⟩ := b
    have hPe : P e := hB (d, e) (List.mem_cons_self _ _)
    have hBt : ∀ x ∈ t, P x.2 := fun x hx => hB x (List.mem_cons_of_mem _ hx)
    simp only [processBatch]
    by_cases hcond : d < f_dist ∨ W.length < ef
    · rw [if_pos hcond]
      have hC' : ∀ c ∈ C ++ [(d, e)], P c.2 := by
        intro c hc
        rcases List.mem_append.mp hc with h0 | h0
        · exact hC c h0
        · rw [List.mem_singleton.mp h0]
          exact hPe
      have hW' : ∀ w ∈ W ++ [(-d, e)], P w.2 := by
        intro w hw
        rcases List.mem_append.mp hw with h0 | h0
        · exact hW w h0
        · rw [List.mem_singleton.mp h0]
          exact hPe
      have hW'' : ∀ w ∈ (if (W ++ [(-d, e)]).length > ef then
          (popMin (W ++ [(-d, e)])).2 else (W ++ [(-d, e)])), P w.2 := by
        split
        · intro w hw
          exact hW' _ (popMin_snd_subset hw)
        · exact hW'
      exact ih _ _ _ hBt hC' hW''
    · rw [if_neg hcond]
      exact ih _ _ _ hBt hC hW

/-- All result ids of the `search_layer` loop are input-heap ids or
neighbor ids read from stored layer nodes. -/
theorem searchLoop_ids {dist : Point → Point → ℚ} {q : Point} {l_c ef : Nat}
    {n : Nat} :
    ∀ (fuel : Nat) (V : List Nat) (C W : List Nd) (s : Store Mt)
      (Wend : List Nd) (s' : Store Mt),
      searchLoop dist q l_c ef fuel V C W s = (.ok Wend, s') →
      (∀ e ∈ s.nbrs, ∀ r ∈ e.2, r.1 < n) →
      (∀ c ∈ C, c.2 < n) → (∀ w ∈ W, w.2 < n) →
      ∀ w ∈ Wend, w.2 < n := by
  intro fuel
  induction fuel with
  | zero =>
    intro V C W s Wend s' h _ _ _
    simp [searchLoop] at h
  | succ f ih =>
    intro V C W s Wend s' h hs hC hW
    rw [searchLoop] at h
    by_cases hCe : C = []
    · rw [if_pos hCe] at h
      have hrun : @EM.pure Mt _ W s = (.ok W, s) := rfl
      rw [hrun] at h
      injection h with h1 h2
      injection h1 with h1
      rw [← h1]
      exact hW
    · rw [if_neg hCe] at h
      rcases hp : popMin C with ⟨copt, C'⟩
      rw [hp] at h
      cases copt with
      | none =>
        dsimp only at h
        have hrun : @EM.pure Mt _ W s = (.ok W, s) := rfl
        rw [hrun] at h
        injection h with h1 h2
        injection h1 with h1
        rw [← h1]
        exact hW
      | some c =>
        dsimp only at h
        rcases hf : findMin W with _ | topW <;> rw [hf] at h <;> dsimp only at h
        · have hrun : @EM.pure Mt _ W s = (.ok W, s) := rfl
          rw [hrun] at h
          injection h with h1 h2
          injection h1 with h1
          rw [← h1]
          exact hW
        · by_cases hgt : c.1 > -topW.1
          · rw [if_pos hgt] at h
            have hrun : @EM.pure Mt _ W s = (.ok W, s) := rfl
            rw [hrun] at h
            injection h with h1 h2
            injection h1 with h1
            rw [← h1]
            exact hW
          · rw [if_neg hgt] at h
            obtain ⟨nb, s1, hnb, h⟩ := EM.bind_ok h
            rcases hg : aGet s.nbrs (l_c, c.2) with _ | nd
            · rw [get_neighbor, hg] at hnb
              simp at hnb
            · rw [get_neighbor, hg] at hnb
              injection hnb with hnb1 hnb2
              injection hnb1 with hnb1
              subst hnb1
              rw [← hnb2] at h
              obtain ⟨points, s2, hpts, h⟩ := EM.bind_ok h
              rw [get_points] at hpts
              injection hpts with hpts1 hpts2
              rw [← hpts2] at h
              have hCsub : ∀ x ∈ C', x.2 < n := by
                intro x hx
                refine hC x (popMin_snd_subset ?_)
                rw [hp]
                exact hx
              have hBids : ∀ b ∈ ((points.map (fun p => dist p q)).zip
                  ((nd.map (fun x => x.1)).filter
                    (fun k => ¬ V.contains k))), b.2 < n := by
                intro b hb
                have hb2 := (List.of_mem_zip hb).2
                have hb3 := List.mem_of_mem_filter hb2
                obtain ⟨r, hr, hre⟩ := List.mem_map.mp hb3
                rw [← hre]
                exact hs _ (aGet_mem hg) r hr
              have hPB := processBatch_ids (fun k => k < n) ef (-topW.1)
                ((points.map (fun p => dist p q)).zip
                  ((nd.map (fun x => x.1)).filter
                    (fun k => ¬ V.contains k)))
                V C' W hBids hCsub hW
              set st := processBatch ef (-topW.1)
                ((points.map (fun p => dist p q)).zip
                  ((nd.map (fun x => x.1)).filter
                    (fun k => ¬ V.contains k))) V C' W
              exact ih st.1 st.2.1 st.2.2 s Wend s' h hs hPB.1 hPB.2

/-- `searchPost` only reshuffles result ids. -/
theorem searchPost_ids (ef : Nat) (Wend : List Nd) :
    ∀ w ∈ searchPost ef Wend, ∃ w0 ∈ Wend, w.2 = w0.2 := by
  intro w hw
  rw [searchPost] at hw
  by_cases h1 : ef = 1
  · rw [if_pos h1] at hw
    by_cases h2 : Wend.length ≠ 0
    · rw [if_pos h2] at hw
      rcases hp : popMin (Wend.map (fun p => (-p.1, p.2))) with ⟨ropt, rest⟩
      rw [hp] at hw
      cases ropt with
      | none => simp at hw
      | some r =>
        dsimp only at hw
        rw [List.mem_singleton.mp hw]
        have hr1 : (popMin (Wend.map (fun p => (-p.1, p.2)))).1 = some r := by
          rw [hp]
        rw [popMin_fst] at hr1
        have hr2 := findMin_mem hr1
        obtain ⟨w0, hw0, hw0e⟩ := List.mem_map.mp hr2
        exact ⟨w0, hw0, by rw [← hw0e]⟩
    · rw [if_neg h2] at hw
      simp at hw
  · rw [if_neg h1] at hw
    obtain ⟨w0, hw0, hw0e⟩ := List.mem_map.mp hw
    exact ⟨w0, hw0, by rw [← hw0e]⟩

theorem search_layer_ids {dist : Point → Point → ℚ} {fuel : Nat} {q : Point}
    {ep : List Nd} {ef l_c : Nat} {n : Nat} {s s' : Store Mt} {W : List Nd}
    (h : search_layer dist fuel q ep ef l_c s = (.ok W, s'))
    (hs : ∀ e ∈ s.nbrs, ∀ r ∈ e.2, r.1 < n)
    (hep : ∀ e ∈ ep, e.2 < n) :
    ∀ w ∈ W, w.2 < n := by
  unfold search_layer at h
  obtain ⟨Wend, s1, hWl, h⟩ := EM.bind_ok h
  have hW0 : ∀ w ∈ ep.map (fun p => (-p.1, p.2)), w.2 < n := by
    intro w hw
    obtain ⟨p, hp, hpe⟩ := List.mem_map.mp hw
    rw [← hpe]
    exact hep p hp
  have hWend := searchLoop_ids fuel _ _ _ s Wend s1 hWl hs hep hW0
  have hrun : @EM.pure Mt _ (searchPost ef Wend) s1 =
      (.ok (searchPost ef Wend), s1) := rfl
  rw [hrun] at h
  injection h with h1 h2
  injection h1 with h1
  rw [← h1]
  intro w hw
  obtain ⟨w0, hw0, hwe⟩ := searchPost_ids ef Wend w hw
  rw [hwe]
  exact hWend w0 hw0

theorem routeLoop_ids {dist : Point → Point → ℚ} {fuel : Nat} {q : Point}
    {n : Nat} :
    ∀ (layers : List Nat) (ep : List Nd) (s : Store Mt) (ep' : List Nd)
      (s' : Store Mt),
      routeLoop dist fuel q layers ep s = (.ok ep', s') →
      (∀ e ∈ s.nbrs, ∀ r ∈ e.2, r.1 < n) →
      (∀ e ∈ ep, e.2 < n) → ∀ e ∈ ep', e.2 < n := by
  intro layers
  induction layers with
  | nil =>
    intro ep s ep' s' h _ hep
    have hrun : @EM.pure Mt _ ep s = (.ok ep, s) := rfl
    rw [routeLoop, hrun] at h
    injection h with h1 h2
    injection h1 with h1
    rw [← h1]
    exact hep
  | cons i rest ih =>
    intro ep s ep' s' h hs hep
    rw [routeLoop] at h
    obtain ⟨W, s1, hW, h⟩ := EM.bind_ok h
    have hs1 : s1 = s := by
      have hro := @search_layer_readOnly Mt dist fuel q
        (ep.map (fun e => (e.1, e.2))) 1 i s
      rw [hW] at hro
      exact hro
    rw [hs1] at hW h
    have hepm : ∀ e ∈ ep.map (fun e => (e.1, e.2)), e.2 < n := by
      intro e he
      obtain ⟨p, hp, hpe⟩ := List.mem_map.mp he
      rw [← hpe]
      exact hep p hp
    have hWids := search_layer_ids hW hs hepm
    have hep2 : ∀ e ∈ (match W.head?, ep.head? with
        | some w, some e0 => if e0.1 > w.1 then W else ep
        | _, _ => ep), e.2 < n := by
      rcases W.head? with _ | w <;> rcases ep.head? with _ | e0 <;>
        dsimp only
      · exact hep
      · exact hep
      · exact hep
      · split
        · exact hWids
        · exact hep
    exact ih _ s ep' s' h hs hep2

theorem knnRouteLoop_ids {dist : Point → Point → ℚ} {fuel : Nat} {q : Point}
    {n : Nat} :
    ∀ (layers : List Nat) (ep : List Nd) (s : Store Mt) (ep' : List Nd)
      (s' : Store Mt),
      knnRouteLoop dist fuel q layers ep s = (.ok ep', s') →
      (∀ e ∈ s.nbrs, ∀ r ∈ e.2, r.1 < n) →
      (∀ e ∈ ep, e.2 < n) → ∀ e ∈ ep', e.2 < n := by
  intro layers
  induction layers with
  | nil =>
    intro ep s ep' s' h _ hep
    have hrun : @EM.pure Mt _ ep s = (.ok ep, s) := rfl
    rw [knnRouteLoop, hrun] at h
    injection h with h1 h2
    injection h1 with h1
    rw [← h1]
    exact hep
  | cons i rest ih =>
    intro ep s ep' s' h hs hep
    rw [knnRouteLoop] at h
    obtain ⟨W, s1, hW, h⟩ := EM.bind_ok h
    have hs1 : s1 = s := by
      have hro := @search_layer_readOnly Mt dist fuel q ep 1 i s
      rw [hW] at hro
      exact hro
    rw [hs1] at hW h
    exact ih _ s ep' s' h hs (search_layer_ids hW hs hep)

/-- The structural well-formedness invariant maintained by `insert`:
every stored layer node respects its layer's degree cap, has unique
neighbor keys, and references only ids of stored points; and the entry
point, when set, is a stored point id. -/
def StoreOK (cfg : HNSW) (s : Store Mt) : Prop :=
  (∀ e ∈ s.nbrs, e.2.length ≤ Mmax cfg e.1.1 ∧ KeysNodup e.2 ∧
    ∀ r ∈ e.2, r.1 < s.pointsCell.getD 0) ∧
  ∀ i, s.epCell = some i → i < s.pointsCell.getD 0

theorem connect_fold_keysNodup (idx : Nat) :
    ∀ (es : List Nd) (init : Graph), KeysNodup init →
      KeysNodup (es.foldl
        (fun g e =>
          match aGet g e.2 with
          | some nd => aSet g e.2 (aSet nd idx e.1)
          | none => g) init) := by
  intro es
  induction es with
  | nil => intro init h; exact h
  | cons e t ih =>
    intro init h
    rw [List.foldl_cons]
    rcases hg : aGet init e.2 with _ | m <;> dsimp only
    · exact ih init h
    · exact ih _ (aSet_keysNodup _ _ h)

/-- One `insertLayerStep` preserves the structural store invariant,
fixes every cell except the layer nodes, and emits only stored entry
points. -/
theorem insertLayerStep_storeOK {dist : Point → Point → ℚ} {cfg : HNSW}
    {fuel : Nat} {q : Point} {idx l_c : Nat} {ep : List Nd}
    {s s' : Store Mt} {ep' : List Nd}
    (h : insertLayerStep dist cfg fuel q idx l_c ep s = (.ok ep', s'))
    (hOK : StoreOK cfg s) (hidx : idx < s.pointsCell.getD 0)
    (hep : ∀ e ∈ ep, e.2 < s.pointsCell.getD 0) :
    StoreOK cfg s' ∧ s'.pointsCell = s.pointsCell ∧ s'.epCell = s.epCell ∧
      s'.layersCell = s.layersCell ∧ s'.pts = s.pts ∧
      ∀ e ∈ ep', e.2 < s.pointsCell.getD 0 := by
  obtain ⟨W, nodes, nodes2, hW, hN, hP, hepW, hs5⟩ := insertLayerStep_ok_decomp h
  set n := s.pointsCell.getD 0 with hn
  have hWids : ∀ w ∈ W, w.2 < n :=
    search_layer_ids hW (fun e he => (hOK.1 e he).2.2) hep
  set sel := select_neighbors cfg q W l_c with hsel
  have hselM : sel.length ≤ Mmax cfg l_c := by
    rw [hsel, select_neighbors_length, ← Mmax_eq_ite]
    exact Nat.min_le_left _ _
  have hselIds : ∀ e ∈ sel, e.2 < n := fun e he =>
    hWids e (select_neighbors_mem _ _ _ _ e he)
  set newNode := sel.foldl (fun nn e => aSet nn e.2 e.1) ([] : LNode)
    with hNN
  have hNNlen : newNode.length ≤ Mmax cfg l_c := by
    have h0 := foldl_aSet_length (fun e : Nd => e.2) (fun e : Nd => e.1)
      sel ([] : LNode)
    rw [hNN]
    simp only [List.length_nil, Nat.zero_add] at h0
    omega
  have hNNkn : KeysNodup newNode :=
    foldl_aSet_keysNodup _ _ _ _ keysNodup_nil
  have hNNids : ∀ r ∈ newNode, r.1 < n := by
    intro r hr
    rw [hNN] at hr
    rcases foldl_aSet_mem (fun e : Nd => e.2) (fun e : Nd => e.1) _ _ _ hr
      with h0 | ⟨e, he, hre⟩
    · simp at h0
    · rw [hre]
      exact hselIds e he
  rw [get_neighbors] at hN
  rcases hge : getNbrsAux s.nbrs l_c (sel.map (fun x => x.2))
    with er | entries <;> rw [hge] at hN <;> dsimp only at hN
  · simp at hN
  · injection hN with hN1 hN2
    injection hN1 with hN1
    have hnodesKN : KeysNodup nodes := by
      rw [← hN1]
      exact foldl_aSet_keysNodup (fun p : Nat × LNode => p.1)
        (fun p : Nat × LNode => p.2) entries [] keysNodup_nil
    have hnodesProps : ∀ p ∈ nodes, p.1 ∈ sel.map (fun x => x.2) ∧
        p.2.length ≤ Mmax cfg l_c ∧ KeysNodup p.2 ∧ ∀ r ∈ p.2, r.1 < n := by
      intro p hp
      rw [← hN1] at hp
      rcases foldl_aSet_mem (fun p : Nat × LNode => p.1)
          (fun p : Nat × LNode => p.2) entries [] p hp
        with h0 | ⟨q0, hq0, hpe⟩
      · simp at h0
      · obtain ⟨hq1, hq2⟩ := getNbrsAux_ok s.nbrs l_c _ entries hge q0 hq0
        have hstored := hOK.1 _ (aGet_mem hq2)
        rw [hpe]
        exact ⟨hq1, hstored.1, hstored.2.1, hstored.2.2⟩
    have hNCkn : KeysNodup (sel.foldl
        (fun g e =>
          match aGet g e.2 with
          | some nd => aSet g e.2 (aSet nd idx e.1)
          | none => g) nodes) := connect_fold_keysNodup idx sel nodes hnodesKN
    have hNCgood : ∀ p ∈ (sel.foldl
        (fun g e =>
          match aGet g e.2 with
          | some nd => aSet g e.2 (aSet nd idx e.1)
          | none => g) nodes), KeysNodup p.2 ∧ ∀ r ∈ p.2, r.1 < n := by
      intro p hp
      obtain ⟨nd0, hnd0, hdisj⟩ := connect_fold_mem idx sel nodes p hp
      have h0 := hnodesProps (p.1, nd0) hnd0
      rcases hdisj with hd | ⟨d, hd⟩
      · rw [hd]
        exact ⟨h0.2.2.1, h0.2.2.2⟩
      · rw [hd]
        refine ⟨aSet_keysNodup _ _ h0.2.2.1, ?_⟩
        intro r hr
        rcases mem_aSet hr with h1 | h1
        · exact h0.2.2.2 r h1
        · rw [h1]
          exact hidx
    have hNClen : ∀ p ∈ (sel.foldl
        (fun g e =>
          match aGet g e.2 with
          | some nd => aSet g e.2 (aSet nd idx e.1)
          | none => g) nodes), p.1 ∈ sel.map (fun x => x.2) ∨
        p.2.length ≤ (if l_c = 0 then cfg.m_max0 else cfg.m) := by
      intro p hp
      obtain ⟨nd0, hnd0, _⟩ := connect_fold_mem idx sel nodes p hp
      exact Or.inl (hnodesProps (p.1, nd0) hnd0).1
    have hPgood := pruneLoop_ok_good (ifM_eq cfg l_c).symm sel _ s nodes2 s
      hP hNCkn hNCgood hNClen
    have hs'e : s' = { s with
        nbrs := nodes2.foldl (fun nb p => aSet nb (l_c, p.1) p.2)
          (aSet s.nbrs (l_c, idx) newNode)
        log := s.log ++ [Key.nbr l_c idx] ++
          nodes2.map (fun p => Key.nbr l_c p.1) } := by
      rw [hs5, upsert_neighbors_run]
      rfl
    have hpc : s'.pointsCell = s.pointsCell := by rw [hs'e]
    have hnbrs : s'.nbrs = nodes2.foldl
        (fun nb p => aSet nb (l_c, p.1) p.2)
        (aSet s.nbrs (l_c, idx) newNode) := by rw [hs'e]
    refine ⟨⟨?_, ?_⟩, hpc, by rw [hs'e], by rw [hs'e], by rw [hs'e], ?_⟩
    · intro e he
      rw [hnbrs] at he
      have hgoaln : s'.pointsCell.getD 0 = n := by rw [hpc]
      rw [hgoaln]
      rcases foldl_aSet_mem
          (fun p : Nat × LNode => ((l_c, p.1) : Nat × Nat))
          (fun p : Nat × LNode => p.2) nodes2 _ e he
        with h0 | ⟨p, hp, hpe⟩
      · rcases mem_aSet h0 with h1 | h1
        · exact hOK.1 e h1
        · rw [h1]
          exact ⟨hNNlen, hNNkn, hNNids⟩
      · rw [hpe]
        have h2 := hPgood.2 p hp
        exact ⟨h2.1, h2.2.1, h2.2.2⟩
    · intro i hi
      rw [hs'e] at hi
      rw [hpc]
      exact hOK.2 i hi
    · intro e he
      rw [hepW] at he
      obtain ⟨w, hw, hwe⟩ := List.mem_map.mp he
      rw [← hwe]
      exact hWids w hw

theorem insertLayersLoop_storeOK {dist : Point → Point → ℚ} {cfg : HNSW}
    {fuel : Nat} {q : Point} {idx : Nat} :
    ∀ (ls : List Nat) (ep : List Nd) (s s' : Store Mt) (u : Unit),
      insertLayersLoop dist cfg fuel q idx ls ep s = (.ok u, s') →
      StoreOK cfg s → idx < s.pointsCell.getD 0 →
      (∀ e ∈ ep, e.2 < s.pointsCell.getD 0) →
      StoreOK cfg s' ∧ s'.pointsCell = s.pointsCell ∧
        s'.epCell = s.epCell ∧ s'.layersCell = s.layersCell := by
  intro ls
  induction ls with
  | nil =>
    intro ep s s' u h hOK hidx hep
    have hrun : @EM.pure Mt _ () s = (.ok (), s) := rfl
    rw [insertLayersLoop, hrun] at h
    injection h with h1 h2
    rw [← h2]
    exact ⟨hOK, rfl, rfl, rfl⟩
  | cons l_c t ih =>
    intro ep s s' u h hOK hidx hep
    rw [insertLayersLoop] at h
    obtain ⟨ep1, s1, hStep, h⟩ := EM.bind_ok h
    obtain ⟨hOK1, hpc1, hec1, hlc1, _, hep1⟩ :=
      insertLayerStep_storeOK hStep hOK hidx hep
    obtain ⟨hOK2, hpc2, hec2, hlc2⟩ := ih ep1 s1 s' u h hOK1
      (by rw [hpc1]; exact hidx) (fun e he => by rw [hpc1]; exact hep1 e he)
    exact ⟨hOK2, by rw [hpc2, hpc1], by rw [hec2, hec1], by rw [hlc2, hlc1]⟩

theorem promoteLoop_storeOK {cfg : HNSW} {idx : Nat} :
    ∀ (k : Nat) (s s' : Store Mt) (u : Unit),
      promoteLoop idx k s = (.ok u, s') →
      StoreOK cfg s → idx < s.pointsCell.getD 0 →
      StoreOK cfg s' ∧ s'.pointsCell = s.pointsCell ∧
        s'.epCell = s.epCell := by
  intro k
  induction k with
  | zero =>
    intro s s' u h hOK hidx
    have hrun : @EM.pure Mt _ () s = (.ok (), s) := rfl
    rw [promoteLoop, hrun] at h
    injection h with h1 h2
    rw [← h2]
    exact ⟨hOK, rfl, rfl⟩
  | succ m ih =>
    intro s s' u h hOK hidx
    rw [promoteLoop] at h
    obtain ⟨u1, s1, hNN, h⟩ := EM.bind_ok h
    rw [new_neighbor_run] at hNN
    injection hNN with hNN1 hNN2
    have hOK1 : StoreOK cfg s1 := by
      rw [← hNN2]
      constructor
      · intro e he
        dsimp only at he
        rcases mem_aSet he with h1 | h1
        · exact hOK.1 e h1
        · rw [h1]
          exact ⟨by simp, keysNodup_nil, by simp⟩
      · intro i hi
        exact hOK.2 i hi
    have hpc1 : s1.pointsCell = s.pointsCell := by rw [← hNN2]
    have hec1 : s1.epCell = s.epCell := by rw [← hNN2]
    obtain ⟨hOK2, hpc2, hec2⟩ := ih s1 s' u h hOK1 (by rw [hpc1]; exact hidx)
    exact ⟨hOK2, by rw [hpc2, hpc1], by rw [hec2, hec1]⟩

/-- A successful `insert` preserves the structural store invariant. -/
theorem insert_storeOK {dist : Point → Point → ℚ} {cfg : HNSW}
    {truthy : Mt → Bool} {fuel : Nat} {q : Point} {md : Option Mt} {l : Nat}
    {s s' : Store Mt} {u : Unit}
    (h : insert dist cfg truthy fuel q md l s = (.ok u, s'))
    (hOK : StoreOK cfg s) : StoreOK cfg s' := by
  unfold insert at h
  obtain ⟨ep_index, s1, hEp, h⟩ := EM.bind_ok h
  have hrunEp : @get_ep Mt s = (.ok s.epCell, s) := rfl
  rw [hrunEp] at hEp
  injection hEp with hEp1 hEp2
  injection hEp1 with hEp1
  subst hEp1
  rw [← hEp2] at h
  obtain ⟨nl, s2, hNl, h⟩ := EM.bind_ok h
  have hrunNl : @get_num_layers Mt s = (.ok (s.layersCell.getD 0), s) := rfl
  rw [hrunNl] at hNl
  injection hNl with hNl1 hNl2
  injection hNl1 with hNl1
  subst hNl1
  rw [← hNl2] at h
  obtain ⟨idx, sN, hNp, h⟩ := EM.bind_ok h
  rw [new_point_run] at hNp
  injection hNp with hNp1 hNp2
  injection hNp1 with hNp1
  rw [← hNp2] at h
  rw [← hNp1] at h
  set n := s.pointsCell.getD 0 with hn
  set sA : Store Mt := { s with
    pts := aSet s.pts n q
    pointsCell := some (n + 1)
    log := s.log ++ [Key.point n, Key.points] } with hsA
  have hpcA : sA.pointsCell = some (n + 1) := rfl
  have hOKA : StoreOK cfg sA := by
    constructor
    · intro e he
      have h0 := hOK.1 e he
      exact ⟨h0.1, h0.2.1, fun r hr => Nat.lt_succ_of_lt (h0.2.2 r hr)⟩
    · intro i hi
      exact Nat.lt_succ_of_lt (hOK.2 i hi)
  obtain ⟨uA, s3, hA, h⟩ := EM.bind_ok h
  have hA3 := insert_meta_effect hA
  have hpc3 : s3.pointsCell = some (n + 1) := by rw [hA3]
  have hec3 : s3.epCell = s.epCell := by rw [hA3]
  have hOK3 : StoreOK cfg s3 := by
    rw [hA3]
    exact ⟨fun e he => hOKA.1 e he, fun i hi => hOKA.2 i hi⟩
  have hnbr3 : ∀ e ∈ s3.nbrs, ∀ r ∈ e.2, r.1 < n + 1 := by
    intro e he r hr
    have h0 := (hOK3.1 e he).2.2 r hr
    rw [hpc3] at h0
    exact h0
  obtain ⟨uB, s4, hB, h⟩ := EM.bind_ok h
  have hB4 : StoreOK cfg s4 ∧ s4.pointsCell = some (n + 1) := by
    rcases hE : s.epCell with _ | epi <;> rw [hE] at hB <;> dsimp only at hB
    · have hrun : @EM.pure Mt _ () s3 = (.ok (), s3) := rfl
      rw [hrun] at hB
      injection hB with hB1 hB2
      rw [← hB2]
      exact ⟨hOK3, hpc3⟩
    · obtain ⟨p0, s3a, hP0, hB⟩ := EM.bind_ok hB
      have hs3a : s3a = s3 := by
        have hro := @get_point_readOnly Mt epi s3
        rw [hP0] at hro
        exact hro
      rw [hs3a] at hB
      obtain ⟨ep1, s3b, hRoute, hB⟩ := EM.bind_ok hB
      have hs3b : s3b = s3 := by
        have hro := @routeLoop_readOnly Mt dist fuel q
          ((List.range (((s.layersCell.getD 0 : Int) - 1 - (l : Int)).toNat)).map
            (fun j => (s.layersCell.getD 0 - 1) - j))
          [(dist q p0, epi)] s3
        rw [hRoute] at hro
        exact hro
      rw [hs3b] at hB hRoute
      have hepi : epi < n + 1 := Nat.lt_succ_of_lt (hOK.2 epi hE)
      have hep1 : ∀ e ∈ ep1, e.2 < n + 1 := by
        refine routeLoop_ids _ _ s3 ep1 s3 hRoute hnbr3 ?_
        intro e he
        rw [List.mem_singleton.mp he]
        exact hepi
      obtain ⟨hOK4, hpc4, _, _⟩ := insertLayersLoop_storeOK _ ep1 s3 s4 uB hB
        hOK3 (by rw [hpc3]; exact Nat.lt_succ_self n)
        (fun e he => by rw [hpc3]; exact hep1 e he)
      exact ⟨hOK4, by rw [hpc4, hpc3]⟩
  obtain ⟨hOK4, hpc4⟩ := hB4
  obtain ⟨LL, s5, hLL, h⟩ := EM.bind_ok h
  have hrunLL : @get_num_layers Mt s4 = (.ok (s4.layersCell.getD 0), s4) := rfl
  rw [hrunLL] at hLL
  injection hLL with hLL1 hLL2
  injection hLL1 with hLL1
  subst hLL1
  rw [← hLL2] at h
  obtain ⟨uC, s6, hSet, h⟩ := EM.bind_ok h
  have hC6 : StoreOK cfg s6 ∧ s6.pointsCell = some (n + 1) := by
    by_cases hll : s4.layersCell.getD 0 < l + 1
    · rw [if_pos hll] at hSet
      have hrun : @set_ep Mt n s4 = (.ok (),
          { s4 with epCell := some n, log := s4.log ++ [Key.ep] }) := rfl
      rw [hrun] at hSet
      injection hSet with hSet1 hSet2
      rw [← hSet2]
      refine ⟨⟨?_, ?_⟩, by rw [hpc4]⟩
      · intro e he
        exact hOK4.1 e he
      · intro i hi
        dsimp only at hi
        injection hi with hi
        have : s4.pointsCell.getD 0 = n + 1 := by rw [hpc4]; rfl
        rw [← hi]
        show n < s4.pointsCell.getD 0
        rw [this]
        exact Nat.lt_succ_self n
    · rw [if_neg hll] at hSet
      have hrun : @EM.pure Mt _ () s4 = (.ok (), s4) := rfl
      rw [hrun] at hSet
      injection hSet with hSet1 hSet2
      rw [← hSet2]
      exact ⟨hOK4, hpc4⟩
  obtain ⟨hOK6, hpc6⟩ := hC6
  obtain ⟨hOK', _, _⟩ := promoteLoop_storeOK _ s6 s' u h hOK6
    (by rw [hpc6]; exact Nat.lt_succ_self n)
  exact hOK'

/-- Stores reachable from the freshly opened index by a sequence of
single-threaded successful inserts (each with its own vector, metadata,
layer draw, distance function and fuel). -/
inductive Reachable (cfg : HNSW) (truthy : Mt → Bool) : Store Mt → Prop where
  | empty : Reachable cfg truthy (emptyStore Mt)
  | step {s s' : Store Mt} {dist : Point → Point → ℚ} {fuel : Nat}
      {q : Point} {md : Option Mt} {l : Nat} {u : Unit} :
      Reachable cfg truthy s →
      insert dist cfg truthy fuel q md l s = (.ok u, s') →
      Reachable cfg truthy s'

/-- Every reachable store satisfies the structural invariant. -/
theorem reachable_storeOK {cfg : HNSW} {truthy : Mt → Bool} {s : Store Mt}
    (h : Reachable cfg truthy s) : StoreOK cfg s := by
  induction h with
  | empty =>
    constructor
    · intro e he
      simp [emptyStore] at he
    · intro i hi
      simp [emptyStore] at hi
  | step hR hins ih => exact insert_storeOK hins ih

/-- Every id below the points counter of a reachable store has a stored
point: ids are assigned consecutively by `new_point`. -/
theorem reachable_ptsCover {cfg : HNSW} {truthy : Mt → Bool} {s : Store Mt}
    (h : Reachable cfg truthy s) :
    ∀ j < s.pointsCell.getD 0, ∃ v, aGet s.pts j = some v := by
  induction h with
  | empty =>
    intro j hj
    simp [emptyStore] at hj
  | step hR hins ih =>
    obtain ⟨e1, e2, _, _⟩ := insert_ok_effect hins
    intro j hj
    rw [e2] at hj
    rw [e1]
    rename_i s0 _ _ _ q0 _ _ _ _ _
    by_cases hjn : j = s0.pointsCell.getD 0
    · subst hjn
      exact ⟨q0, aGet_aSet_self _ _ _⟩
    · rw [aGet_aSet_ne _ _ _ _ hjn]
      refine ih j ?_
      have hj' : j < s0.pointsCell.getD 0 + 1 := hj
      omega

/-! ### Claim C6: the per-layer degree bound -/

/-- C6: after any sequence of single-threaded inserts on a freshly
opened index built by the `HNSW` constructor with parameter `M = m`,
every stored LayerNode at layer `L` has at most `M_max(L)` neighbors,
where `M_max(0) = 2·M` and `M_max(L) = M` for `L > 0`. -/
theorem C6_degree_bound {m efc efs : Nat} {truthy : Mt → Bool}
    {s : Store Mt} (hR : Reachable (HNSW.make m efc efs) truthy s)
    {layer i : Nat} {nd : LNode}
    (hget : aGet s.nbrs (layer, i) = some nd) :
    nd.length ≤ if layer = 0 then 2 * m else m := by
  have h0 := (reachable_storeOK hR).1 _ (aGet_mem hget)
  have hMx : Mmax (HNSW.make m efc efs) layer =
      if layer = 0 then 2 * m else m := by
    rw [Mmax, HNSW.make]
    by_cases hl : layer = 0 <;> simp [hl, Nat.mul_comm]
  rw [← hMx]
  exact h0.1

/-- A concrete small configuration (`M = 2`, `ef_construction = 4`,
`ef_search = 2`) and the store reached by inserting the three
one-dimensional vectors `[1]`, `[2]`, `[3]`, each drawn at layer 0. -/
def cfgW : HNSW := HNSW.make 2 4 2

def rStore1 : Store Nat :=
  (insert wDist cfgW natTruthy 10 [1] none 0 (emptyStore Nat)).2

def rStore2 : Store Nat :=
  (insert wDist cfgW natTruthy 10 [2] none 0 rStore1).2

def rStore3 : Store Nat :=
  (insert wDist cfgW natTruthy 10 [3] none 0 rStore2).2

theorem rStore1_reachable : Reachable cfgW natTruthy rStore1 :=
  Reachable.step Reachable.empty
    (show insert wDist cfgW natTruthy 10 [1] none 0 (emptyStore Nat) =
      (.ok (), rStore1) from rfl)

theorem rStore2_reachable : Reachable cfgW natTruthy rStore2 :=
  Reachable.step rStore1_reachable
    (show insert wDist cfgW natTruthy 10 [2] none 0 rStore1 =
      (.ok (), rStore2) from rfl)

theorem rStore3_reachable : Reachable cfgW natTruthy rStore3 :=
  Reachable.step rStore2_reachable
    (show insert wDist cfgW natTruthy 10 [3] none 0 rStore2 =
      (.ok (), rStore3) from rfl)

/-- Closed instance of C6 at the concrete three-insert store: the layer-0
node of point 0 holds both other points, within the cap `2·M = 4`. -/
theorem C6_degree_bound_witness :
    ([((1 : Nat), (1 : ℚ)), (2, 1)] : LNode).length ≤
      if (0 : Nat) = 0 then 2 * 2 else 2 :=
  C6_degree_bound rStore3_reachable
    (show aGet rStore3.nbrs (0, 0) = some [(1, 1), (2, 1)] from rfl)

/-! ### Claim C10: stored neighbor ids reference stored points -/

/-- C10: after any sequence of single-threaded inserts starting from the
empty store, every neighbor id appearing in any stored LayerNode is the
id of a stored point: it is strictly below `num_points`, and a point is
stored under it — so `search_layer` never dereferences a missing point
at quiescence. -/
theorem C10_neighbor_ids_bounded {cfg : HNSW} {truthy : Mt → Bool}
    {s : Store Mt} (hR : Reachable cfg truthy s)
    {layer i : Nat} {nd : LNode}
    (hget : aGet s.nbrs (layer, i) = some nd) :
    ∀ p ∈ nd, p.1 < s.pointsCell.getD 0 ∧ ∃ v, aGet s.pts p.1 = some v := by
  intro p hp
  have h1 := ((reachable_storeOK hR).1 _ (aGet_mem hget)).2.2 p hp
  exact ⟨h1, reachable_ptsCover hR p.1 h1⟩

/-- Closed instance of C10 at the concrete three-insert store: the
neighbor id 2 stored in the layer-0 node of point 1 is a stored point
id. -/
theorem C10_neighbor_ids_bounded_witness :
    (2 : Nat) < rStore3.pointsCell.getD 0 ∧
      ∃ v, aGet rStore3.pts 2 = some v :=
  C10_neighbor_ids_bounded rStore3_reachable
    (show aGet rStore3.nbrs (0, 1) = some [(0, 1), (2, 2)] from rfl)
    (2, 2) (by decide)

/-! ### Duplicate-freedom of search results -/

theorem contains_true_iff_mem (V : List Nat) (k : Nat) :
    V.contains k = true ↔ k ∈ V := by
  induction V with
  | nil => simp
  | cons a t ih =>
    rw [List.contains_cons, Bool.or_eq_true, List.mem_cons, ih]
    constructor
    · intro h
      rcases h with h | h
      · exact Or.inl (beq_iff_eq.mp h)
      · exact Or.inr h
    · intro h
      rcases h with h | h
      · exact Or.inl (beq_iff_eq.mpr h)
      · exact Or.inr h

theorem nodup_of_len_le_one {α : Type} : ∀ {l : List α}, l.length ≤ 1 →
    l.Nodup := by
  intro l h
  cases l with
  | nil => simp
  | cons a t =>
    cases t with
    | nil => simp
    | cons b t2 => simp at h

theorem zip_snd_eq {α β : Type} :
    ∀ (l : List α) (m : List β), l.length = m.length →
      (l.zip m).map (fun p => p.2) = m := by
  intro l
  induction l with
  | nil =>
    intro m h
    rw [List.length_nil] at h
    rw [(List.length_eq_zero).mp h.symm]
    rfl
  | cons a t ih =>
    intro m h
    cases m with
    | nil => simp at h
    | cons b mt =>
      rw [List.zip_cons_cons, List.map_cons, ih mt (by simpa using h)]

theorem zip_map_fst {α β γ : Type} (g : α → γ) :
    ∀ (l : List α) (m : List β), l.length = m.length →
      (l.zip m).map (fun pm => g pm.1) = l.map g := by
  intro l
  induction l with
  | nil => intro m h; rfl
  | cons a t ih =>
    intro m h
    cases m with
    | nil => simp at h
    | cons b mt =>
      rw [List.zip_cons_cons, List.map_cons, List.map_cons,
        ih mt (by simpa using h)]

theorem pairwise_zip_left {α β : Type} {R : α → α → Prop} :
    ∀ {l : List α} {m : List β}, l.Pairwise R →
      (l.zip m).Pairwise (fun x y => R x.1 y.1) := by
  intro l
  induction l with
  | nil => intro m _; simp
  | cons a t ih =>
    intro m h
    cases m with
    | nil => simp
    | cons b mt =>
      rw [List.zip_cons_cons, List.pairwise_cons]
      rw [List.pairwise_cons] at h
      refine ⟨?_, ih h.2⟩
      intro y hy
      exact h.1 y.1 (List.of_mem_zip hy).1

/-- One `dists.forEach` batch keeps the result-heap ids duplicate-free
and visited, given a duplicate-free unvisited batch. -/
theorem processBatch_nodup (ef : Nat) (f_dist : ℚ) :
    ∀ (batch : List (ℚ × Nat)) (V : List Nat) (C W : List Nd),
      (batch.map (fun b => b.2)).Nodup →
      (∀ b ∈ batch, b.2 ∉ V) →
      (W.map (fun w => w.2)).Nodup →
      (∀ w ∈ W, w.2 ∈ V) →
      ((processBatch ef f_dist batch V C W).2.2.map
        (fun w => w.2)).Nodup ∧
      ∀ w ∈ (processBatch ef f_dist batch V C W).2.2,
        w.2 ∈ (processBatch ef f_dist batch V C W).1 := by
  intro batch
  induction batch with
  | nil => intro V C W _ _ hW hWV; exact ⟨hW, hWV⟩
  | cons b t ih =>
    intro V C W hBn hBV hW hWV
    obtain ⟨d, e⟩ := b
    have heV : e ∉ V := hBV (d, e) (List.mem_cons_self _ _)
    have heT : e ∉ t.map (fun b => b.2) := by
      rw [List.map_cons, List.nodup_cons] at hBn
      exact hBn.1
    have hBn' : (t.map (fun b => b.2)).Nodup := by
      rw [List.map_cons, List.nodup_cons] at hBn
      exact hBn.2
    have hBV' : ∀ x ∈ t, x.2 ∉ V ++ [e] := by
      intro x hx hmem
      rcases List.mem_append.mp hmem with h0 | h0
      · exact hBV x (List.mem_cons_of_mem _ hx) h0
      · exact heT (List.mem_map.mpr ⟨x, hx, List.mem_singleton.mp h0⟩)
    simp only [processBatch]
    by_cases hcond : d < f_dist ∨ W.length < ef
    · rw [if_pos hcond]
      have hWn' : ((W ++ [(-d, e)]).map (fun w => w.2)).Nodup := by
        rw [List.map_append]
        rw [List.nodup_append]
        refine ⟨hW, by simp, ?_⟩
        intro x hx hx2
        simp only [List.map_cons, List.map_nil, List.mem_singleton] at hx2
        obtain ⟨w, hw, hwe⟩ := List.mem_map.mp hx
        rw [hx2] at hwe
        rw [← hwe] at heV
        exact heV (hWV w hw)
      have hWV' : ∀ w ∈ W ++ [(-d, e)], w.2 ∈ V ++ [e] := by
        intro w hw
        rcases List.mem_append.mp hw with h0 | h0
        · exact List.mem_append.mpr (Or.inl (hWV w h0))
        · rw [List.mem_singleton.mp h0]
          exact List.mem_append.mpr (Or.inr (List.mem_singleton.mpr rfl))
      have hWn'' : ((if (W ++ [(-d, e)]).length > ef then
          (popMin (W ++ [(-d, e)])).2 else (W ++ [(-d, e)])).map
            (fun w => w.2)).Nodup := by
        split
        · rcases hpm : popMin (W ++ [(-d, e)]) with ⟨xopt, rest⟩
          cases xopt with
          | none =>
            have h1 := popMin_fst (W ++ [(-d, e)])
            rw [hpm] at h1
            rw [findMin_eq_none.mp h1.symm] at hpm
            injection hpm with hpm1 hpm2
            rw [← hpm2]
            simp
          | some x =>
            have hperm := popMin_perm hpm
            have h2 : ((x :: rest).map (fun w => w.2)).Nodup :=
              (List.Perm.nodup_iff (hperm.map (fun w => w.2))).mp hWn'
            rw [List.map_cons, List.nodup_cons] at h2
            exact h2.2
        · exact hWn'
      have hWV'' : ∀ w ∈ (if (W ++ [(-d, e)]).length > ef then
          (popMin (W ++ [(-d, e)])).2 else (W ++ [(-d, e)])),
            w.2 ∈ V ++ [e] := by
        split
        · intro w hw
          exact hWV' w (popMin_snd_subset hw)
        · exact hWV'
      exact ih _ _ _ hBn' hBV' hWn'' hWV''
    · rw [if_neg hcond]
      have hWV' : ∀ w ∈ W, w.2 ∈ V ++ [e] :=
        fun w hw => List.mem_append.mpr (Or.inl (hWV w hw))
      exact ih _ _ _ hBn' hBV' hW hWV'

/-- The `search_layer` loop keeps result ids duplicate-free: every id is
marked visited when pushed, and only unvisited neighbors are pushed. -/
theorem searchLoop_nodup {dist : Point → Point → ℚ} {q : Point}
    {l_c ef : Nat} :
    ∀ (fuel : Nat) (V : List Nat) (C W : List Nd) (s : Store Mt)
      (Wend : List Nd) (s' : Store Mt),
      searchLoop dist q l_c ef fuel V C W s = (.ok Wend, s') →
      (∀ e ∈ s.nbrs, KeysNodup e.2) →
      (W.map (fun w => w.2)).Nodup →
      (∀ w ∈ W, w.2 ∈ V) →
      (Wend.map (fun w => w.2)).Nodup := by
  intro fuel
  induction fuel with
  | zero =>
    intro V C W s Wend s' h _ _ _
    simp [searchLoop] at h
  | succ f ih =>
    intro V C W s Wend s' h hkn hW hWV
    rw [searchLoop] at h
    by_cases hCe : C = []
    · rw [if_pos hCe] at h
      have hrun : @EM.pure Mt _ W s = (.ok W, s) := rfl
      rw [hrun] at h
      injection h with h1 h2
      injection h1 with h1
      rw [← h1]
      exact hW
    · rw [if_neg hCe] at h
      rcases hp : popMin C with ⟨copt, C'⟩
      rw [hp] at h
      cases copt with
      | none =>
        dsimp only at h
        have hrun : @EM.pure Mt _ W s = (.ok W, s) := rfl
        rw [hrun] at h
        injection h with h1 h2
        injection h1 with h1
        rw [← h1]
        exact hW
      | some c =>
        dsimp only at h
        rcases hf : findMin W with _ | topW <;> rw [hf] at h <;> dsimp only at h
        · have hrun : @EM.pure Mt _ W s = (.ok W, s) := rfl
          rw [hrun] at h
          injection h with h1 h2
          injection h1 with h1
          rw [← h1]
          exact hW
        · by_cases hgt : c.1 > -topW.1
          · rw [if_pos hgt] at h
            have hrun : @EM.pure Mt _ W s = (.ok W, s) := rfl
            rw [hrun] at h
            injection h with h1 h2
            injection h1 with h1
            rw [← h1]
            exact hW
          · rw [if_neg hgt] at h
            obtain ⟨nb, s1, hnb, h⟩ := EM.bind_ok h
            rcases hg : aGet s.nbrs (l_c, c.2) with _ | nd
            · rw [get_neighbor, hg] at hnb
              simp at hnb
            · rw [get_neighbor, hg] at hnb
              injection hnb with hnb1 hnb2
              injection hnb1 with hnb1
              subst hnb1
              rw [← hnb2] at h
              obtain ⟨points, s2, hpts, h⟩ := EM.bind_ok h
              rw [get_points] at hpts
              injection hpts with hpts1 hpts2
              rw [← hpts2] at h
              have hnbrNodup : ((nd.map (fun x => x.1)).filter
                  (fun k => ¬ V.contains k)).Nodup :=
                List.Nodup.filter _ (hkn _ (aGet_mem hg))
              have hnbrNotV : ∀ k ∈ (nd.map (fun x => x.1)).filter
                  (fun k => ¬ V.contains k), k ∉ V := by
                intro k hk hkV
                have h0 := (List.mem_filter.mp hk).2
                have h1 := of_decide_eq_true h0
                exact h1 ((contains_true_iff_mem V k).mpr hkV)
              have hlen : (points.map (fun p => dist p q)).length =
                  ((nd.map (fun x => x.1)).filter
                    (fun k => ¬ V.contains k)).length := by
                rw [List.length_map]
                exact getPointsAux_length s.pts _ points hpts1
              have hBn : (((points.map (fun p => dist p q)).zip
                  ((nd.map (fun x => x.1)).filter
                    (fun k => ¬ V.contains k))).map
                      (fun b => b.2)).Nodup := by
                rw [zip_snd_eq _ _ hlen]
                exact hnbrNodup
              have hBV : ∀ b ∈ ((points.map (fun p => dist p q)).zip
                  ((nd.map (fun x => x.1)).filter
                    (fun k => ¬ V.contains k))), b.2 ∉ V := by
                intro b hb
                exact hnbrNotV b.2 (List.of_mem_zip hb).2
              have hPB := processBatch_nodup ef (-topW.1)
                ((points.map (fun p => dist p q)).zip
                  ((nd.map (fun x => x.1)).filter
                    (fun k => ¬ V.contains k))) V C' W hBn hBV hW hWV
              set st := processBatch ef (-topW.1)
                ((points.map (fun p => dist p q)).zip
                  ((nd.map (fun x => x.1)).filter
                    (fun k => ¬ V.contains k))) V C' W
              exact ih st.1 st.2.1 st.2.2 s Wend s' h hkn hPB.1 hPB.2

theorem searchPost_nodup (ef : Nat) (Wend : List Nd)
    (h : (Wend.map (fun w => w.2)).Nodup) :
    ((searchPost ef Wend).map (fun w => w.2)).Nodup := by
  rw [searchPost]
  by_cases h1 : ef = 1
  · rw [if_pos h1]
    by_cases h2 : Wend.length ≠ 0
    · rw [if_pos h2]
      rcases hpm : popMin (Wend.map (fun p => (-p.1, p.2)))
        with ⟨ropt, rest⟩
      rw [hpm]
      cases ropt <;> dsimp only <;> simp
    · rw [if_neg h2]
      simp
  · rw [if_neg h1]
    rw [List.map_map]
    exact h

theorem search_layer_nodup {dist : Point → Point → ℚ} {fuel : Nat}
    {q : Point} {ep : List Nd} {ef l_c : Nat} {s s' : Store Mt}
    {W : List Nd}
    (h : search_layer dist fuel q ep ef l_c s = (.ok W, s'))
    (hkn : ∀ e ∈ s.nbrs, KeysNodup e.2)
    (hep : (ep.map (fun e => e.2)).Nodup) :
    (W.map (fun w => w.2)).Nodup := by
  unfold search_layer at h
  obtain ⟨Wend, s1, hWl, h⟩ := EM.bind_ok h
  have hW0 : ((ep.map (fun p => (-p.1, p.2))).map (fun w => w.2)).Nodup := by
    rw [List.map_map]
    exact hep
  have hWV0 : ∀ w ∈ ep.map (fun p => (-p.1, p.2)),
      w.2 ∈ ep.map (fun e => e.2) := by
    intro w hw
    obtain ⟨p, hp, hpe⟩ := List.mem_map.mp hw
    rw [← hpe]
    exact List.mem_map.mpr ⟨p, hp, rfl⟩
  have hWn := searchLoop_nodup fuel _ _ _ s Wend s1 hWl hkn hW0 hWV0
  have hrun : @EM.pure Mt _ (searchPost ef Wend) s1 =
      (.ok (searchPost ef Wend), s1) := rfl
  rw [hrun] at h
  injection h with h1 h2
  injection h1 with h1
  rw [← h1]
  exact searchPost_nodup ef Wend hWn

theorem search_layer_len1 {dist : Point → Point → ℚ} {fuel : Nat}
    {q : Point} {ep : List Nd} {l_c : Nat} {s s' : Store Mt} {W : List Nd}
    (h : search_layer dist fuel q ep 1 l_c s = (.ok W, s')) :
    W.length ≤ 1 := by
  unfold search_layer at h
  obtain ⟨Wend, s1, hWl, h⟩ := EM.bind_ok h
  have hrun : @EM.pure Mt _ (searchPost 1 Wend) s1 =
      (.ok (searchPost 1 Wend), s1) := rfl
  rw [hrun] at h
  injection h with h1 h2
  injection h1 with h1
  rw [← h1]
  rw [searchPost, if_pos rfl]
  by_cases h2 : Wend.length ≠ 0
  · rw [if_pos h2]
    rcases hpm : popMin (Wend.map (fun p => (-p.1, p.2))) with ⟨ropt, rest⟩
    rw [hpm]
    cases ropt <;> dsimp only <;> simp
  · rw [if_neg h2]
    simp

theorem knnRouteLoop_nodup {dist : Point → Point → ℚ} {fuel : Nat}
    {q : Point} :
    ∀ (layers : List Nat) (ep : List Nd) (s : Store Mt) (ep' : List Nd)
      (s' : Store Mt),
      knnRouteLoop dist fuel q layers ep s = (.ok ep', s') →
      (ep.map (fun e => e.2)).Nodup →
      (ep'.map (fun e => e.2)).Nodup := by
  intro layers
  induction layers with
  | nil =>
    intro ep s ep' s' h hep
    have hrun : @EM.pure Mt _ ep s = (.ok ep, s) := rfl
    rw [knnRouteLoop, hrun] at h
    injection h with h1 h2
    injection h1 with h1
    rw [← h1]
    exact hep
  | cons i rest ih =>
    intro ep s ep' s' h hep
    rw [knnRouteLoop] at h
    obtain ⟨W, s1, hW, h⟩ := EM.bind_ok h
    have hs1 : s1 = s := by
      have hro := @search_layer_readOnly Mt dist fuel q ep 1 i s
      rw [hW] at hro
      exact hro
    rw [hs1] at hW h
    have hWlen := search_layer_len1 hW
    have hWn : (W.map (fun e => e.2)).Nodup :=
      nodup_of_len_le_one (by rw [List.length_map]; exact hWlen)
    exact ih _ s ep' s' h hWn

/-! ### Claim C5: the shape of `knn_search` results -/

instance : IsTotal Nd (fun a b => a.1 ≤ b.1) :=
  ⟨fun a b => le_total a.1 b.1⟩

instance : IsTrans Nd (fun a b => a.1 ≤ b.1) :=
  ⟨fun _ _ _ hab hbc => le_trans hab hbc⟩

/-- C5 counterexample: on the reachable 3-point index built with
`ef_search = 2`, searching with `k = 4 > num_points = 3` returns only 2
results, not `num_points`: layer 0 is searched with `ef_search` alone
(the source passes `this.ef`, not `max(ef_search, k)`), which caps the
candidate heap below `num_points`. -/
theorem C5_counterexample :
    rStore3.pointsCell = some 3 ∧
    (knn_search wDist cfgW 10 [10] 4 rStore3).1.map
      (fun res => res.length) = Except.ok 2 :=
  ⟨rfl, rfl⟩

/-- C5 (amended): on every reachable index, every successful
`knn_search(q, k)` returns at most `k` results, ordered ascending by
distance, containing no duplicate ids — but its length is NOT in general
`num_points` when `k > num_points` (see the counterexample): layer 0 is
searched with `ef_search`, not `max(ef_search, k)`, so the result can be
shorter than both. -/
theorem C5_knn_search_amended {dist : Point → Point → ℚ} {cfg : HNSW}
    {truthy : Mt → Bool} {fuel : Nat} {q : Point} {K : Nat}
    {s s' : Store Mt} {res : List (KNNResult Mt)}
    (hR : Reachable cfg truthy s)
    (h : knn_search dist cfg fuel q K s = (.ok res, s')) :
    res.length ≤ K ∧
    List.Pairwise (fun a b : KNNResult Mt => a.distance ≤ b.distance) res ∧
    (res.map (fun r => r.id)).Nodup := by
  have hOK := reachable_storeOK hR
  unfold knn_search at h
  obtain ⟨ep_index, s1, hEp, h⟩ := EM.bind_ok h
  have hrunEp : @get_ep Mt s = (.ok s.epCell, s) := rfl
  rw [hrunEp] at hEp
  injection hEp with hEp1 hEp2
  injection hEp1 with hEp1
  subst hEp1
  rw [← hEp2] at h
  rcases hE : s.epCell with _ | epi <;> rw [hE] at h <;> dsimp only at h
  · have hrun : @EM.pure Mt _ ([] : List (KNNResult Mt)) s =
        (.ok [], s) := rfl
    rw [hrun] at h
    injection h with h1 h2
    injection h1 with h1
    rw [← h1]
    refine ⟨by simp, by simp, by simp⟩
  · obtain ⟨nl, s2, hNl, h⟩ := EM.bind_ok h
    have hrunNl : @get_num_layers Mt s = (.ok (s.layersCell.getD 0), s) := rfl
    rw [hrunNl] at hNl
    injection hNl with hNl1 hNl2
    injection hNl1 with hNl1
    subst hNl1
    rw [← hNl2] at h
    obtain ⟨p0, s3, hP0, h⟩ := EM.bind_ok h
    have hs3 : s3 = s := by
      have hro := @get_point_readOnly Mt epi s
      rw [hP0] at hro
      exact hro
    rw [hs3] at h
    obtain ⟨ep1, s4, hRoute, h⟩ := EM.bind_ok h
    have hs4 : s4 = s := by
      have hro := @knnRouteLoop_readOnly Mt dist fuel q
        ((List.range (((s.layersCell.getD 0 : Int) - 1)).toNat).map
          (fun j => (((s.layersCell.getD 0 : Int) - 1)).toNat - j))
        [(dist q p0, epi)] s
      rw [hRoute] at hro
      exact hro
    rw [hs4] at hRoute h
    have hep1n : (ep1.map (fun e => e.2)).Nodup := by
      refine knnRouteLoop_nodup _ _ s ep1 s hRoute ?_
      simp
    obtain ⟨ep2, s5, hSearch, h⟩ := EM.bind_ok h
    have hs5 : s5 = s := by
      have hro := @search_layer_readOnly Mt dist fuel q ep1 cfg.ef 0 s
      rw [hSearch] at hro
      exact hro
    rw [hs5] at hSearch h
    have hep2n : (ep2.map (fun e => e.2)).Nodup :=
      search_layer_nodup hSearch (fun e he => (hOK.1 e he).2.1) hep1n
    obtain ⟨metadatas, s6, hMeta, h⟩ := EM.bind_ok h
    have hrunMeta : @get_metadatas Mt (((sortNodes ep2).take K).map
        (fun x => x.2)) s =
        (.ok ((((sortNodes ep2).take K).map (fun x => x.2)).map
          (aGet s.metas)), s) := rfl
    rw [hrunMeta] at hMeta
    injection hMeta with hMeta1 hMeta2
    injection hMeta1 with hMeta1
    subst hMeta1
    rw [← hMeta2] at h
    have hrunP : @EM.pure Mt _ ((((sortNodes ep2).take K).zip
        ((((sortNodes ep2).take K).map (fun x => x.2)).map
          (aGet s.metas))).map (fun pm =>
            ({ id := pm.1.2, distance := pm.1.1, metadata := pm.2 } :
              KNNResult Mt))) s =
        (.ok _, s) := rfl
    rw [hrunP] at h
    injection h with h1 h2
    injection h1 with h1
    rw [← h1]
    set topk := (sortNodes ep2).take K with htopk
    set mds := (topk.map (fun x => x.2)).map (aGet s.metas) with hmds
    have hlenEq : topk.length = mds.length := by
      rw [hmds]
      simp
    have hlenTopk : topk.length ≤ K := by
      rw [htopk]
      simp [sortNodes]
    refine ⟨?_, ?_, ?_⟩
    · rw [List.length_map, List.length_zip]
      omega
    · have hsorted : List.Pairwise (fun a b : Nd => a.1 ≤ b.1)
          (sortNodes ep2) :=
        List.sorted_insertionSort (fun a b : Nd => a.1 ≤ b.1) ep2
      have htksorted : List.Pairwise (fun a b : Nd => a.1 ≤ b.1) topk := by
        rw [htopk]
        exact List.Pairwise.sublist (List.take_sublist K (sortNodes ep2))
          hsorted
      have hzip := pairwise_zip_left (m := mds) htksorted
      rw [List.pairwise_map]
      exact hzip
    · have hids : ((topk.zip mds).map (fun pm =>
          ({ id := pm.1.2, distance := pm.1.1, metadata := pm.2 } :
            KNNResult Mt))).map (fun r => r.id) =
          topk.map (fun x => x.2) := by
        rw [List.map_map]
        exact zip_map_fst (fun x : Nd => x.2) topk mds hlenEq
      rw [hids]
      have hsortn : ((sortNodes ep2).map (fun x => x.2)).Nodup := by
        refine (List.Perm.nodup_iff ?_).mpr hep2n
        exact (List.perm_insertionSort _ ep2).map _
      rw [htopk, List.map_take]
      exact List.Nodup.sublist (List.take_sublist _ _) hsortn

/-- Closed instance of C5 (amended) at the concrete 3-point store with
`k = 4`. -/
theorem C5_knn_search_amended_witness :
    ([⟨0, 1, none⟩, ⟨1, 2, none⟩] : List (KNNResult Nat)).length ≤ 4 ∧
    List.Pairwise (fun a b : KNNResult Nat => a.distance ≤ b.distance)
      ([⟨0, 1, none⟩, ⟨1, 2, none⟩] : List (KNNResult Nat)) ∧
    (([⟨0, 1, none⟩, ⟨1, 2, none⟩] : List (KNNResult Nat)).map
      (fun r => r.id)).Nodup :=
  C5_knn_search_amended rStore3_reachable
    (show knn_search wDist cfgW 10 [10] 4 rStore3 =
      (.ok [⟨0, 1, none⟩, ⟨1, 2, none⟩], rStore3) from rfl)

end Context0
